import Mathlib

/-!
Verification of the mutualized language-server broker
(`@codingame/languageserver-mutualized`).

The development shallowly embeds the parts of the source that the
specification talks about:

* `src/tools/lsp.ts` — the diff engine (`diff`, `optimizeDiff`,
  `charOffsetToLineAndChar`, `lspDiff`);
* the document-change application of `vscode-languageserver-textdocument`
  (`TextDocument.update` / `offsetAt`), which both the repository's own
  `updateDocument` and its test-suite use to apply the produced changes;
* `src/language-client.ts` — the per-URI document synchronization state
  machine (`openDocument` / `updateDocument` / `closeDocument`) together
  with the order of its observable effects;
* `src/tools/cache.ts` — the memoized connection;
* `src/constants/lsp.ts` — the forwarded request set;
* `src/capabilities.ts` — the dynamic registration registry;
* `src/language-client-mutualization.ts` — refresh-request gating and
  workspace-edit filtering of `bindClientToServer`.

JavaScript strings are sequences of UTF-16 code units; a string is modelled
as the list of its code units (`Text := List Nat`).  The line-feed unit is
10 and the carriage-return unit is 13.
-/

namespace LsMut

/-- A JS string as its list of UTF-16 code units. -/
abbrev Text := List Nat

/-- The line-feed code unit. -/
def LF : Nat := 10

/-- The carriage-return code unit. -/
def CR : Nat := 13

/-- An LSP `Position` (`line`/`character`), as produced by
`charOffsetToLineAndChar` in `src/tools/lsp.ts`. -/
structure Position where
  line : Nat
  character : Nat
deriving DecidableEq

/-- An LSP `Range`. -/
structure Range where
  rangeStart : Position
  rangeEnd : Position
deriving DecidableEq

/-- A `TextDocumentContentChangeEvent`: either an incremental change with a
range, or a full-text replacement (`[{text: newCode}]`). -/
inductive ContentChange where
  | incremental (range : Range) (rangeLength : Nat) (text : Text)
  | full (text : Text)
deriving DecidableEq

/-- The `Diff` record of `src/tools/lsp.ts`: a replacement of
`length` code units starting at `offset` (in the old text) by `text`. -/
structure Diff where
  offset : Nat
  length : Nat
  text : Text
deriving DecidableEq

/-- `String.prototype.split('\n')`: split a text at every line feed.
The result is always non-empty. -/
def splitLines : Text → List Text
  | [] => [[]]
  | c :: rest =>
    if c = LF then [] :: splitLines rest
    else
      match splitLines rest with
      | l :: ls => (c :: l) :: ls
      | [] => [[c]]

/-- `charOffsetToLineAndChar` of `src/tools/lsp.ts`.  Walks the line list;
the source's `throw new Error('Position not found ...')` branch is
modelled by `none`. -/
def charOffsetToLineAndChar : List Text → Nat → Option Position
  | [], _ => none
  | l :: ls, offset =>
    if offset ≤ l.length then some ⟨0, offset⟩
    else
      match charOffsetToLineAndChar ls (offset - (l.length + 1)) with
      | some p => some ⟨p.line + 1, p.character⟩
      | none => none

/-- The loop body of `diff` in `src/tools/lsp.ts`, fed with the result of
the external `fast-diff` package (a list of `(type, text)` pairs with
`type ∈ {-1, 0, 1}`).  A `-1` entry becomes a deletion, a `1` entry an
insertion; the running offset advances by `text.length` for every entry
whose type is not `1`. -/
def diffAux : Nat → List (Int × Text) → List Diff
  | _, [] => []
  | offset, (t, s) :: rest =>
    if t = -1 then ⟨offset, s.length, []⟩ :: diffAux (offset + s.length) rest
    else if t = 1 then ⟨offset, 0, s⟩ :: diffAux offset rest
    else diffAux (offset + s.length) rest

/-- The loop of `optimizeDiff` in `src/tools/lsp.ts`: `last` is the pending
diff; an adjacent diff (`d.offset = last.offset + last.length`) is merged
into it, otherwise `last` is emitted and `d` becomes pending. -/
def optimizeDiffAux : Diff → List Diff → List Diff
  | last, [] => [last]
  | last, d :: rest =>
    if d.offset = last.offset + last.length then
      optimizeDiffAux ⟨last.offset, last.length + d.length, last.text ++ d.text⟩ rest
    else
      last :: optimizeDiffAux d rest

/-- `optimizeDiff` of `src/tools/lsp.ts` (empty input yields empty output,
since the loop never runs and `lastDiff` stays `undefined`). -/
def optimizeDiff : List Diff → List Diff
  | [] => []
  | d :: rest => optimizeDiffAux d rest

/-- Length of the longest common prefix of two texts. -/
def commonPrefixLen : Text → Text → Nat
  | a :: as, b :: bs => if a = b then commonPrefixLen as bs + 1 else 0
  | _, _ => 0

/-- A model of the external `fast-diff` npm package (a dependency, not part
of this repository): it trims the common prefix and suffix and reports the
remainders as one deletion and one insertion.  All theorems about the diff
pipeline are proved parametrically in any `fast-diff` result that satisfies
the package's contract (`decompOld` / `decompNew` below); this concrete
model is used to instantiate witnesses and counterexamples, on which it
agrees with the real package. -/
def fastDiff (oldText newText : Text) : List (Int × Text) :=
  let p := commonPrefixLen oldText newText
  let oldRest := oldText.drop p
  let newRest := newText.drop p
  let s := commonPrefixLen oldRest.reverse newRest.reverse
  let oldMid := oldRest.take (oldRest.length - s)
  let newMid := newRest.take (newRest.length - s)
  (if p = 0 then [] else [((0 : Int), oldText.take p)]) ++
  (if oldMid.isEmpty then [] else [((-1 : Int), oldMid)]) ++
  (if newMid.isEmpty then [] else [((1 : Int), newMid)]) ++
  (if s = 0 then [] else [((0 : Int), oldRest.drop (oldRest.length - s))])

/-- The old text described by a `fast-diff` result: the concatenation of
the texts of the equal (`0`) and deleted (`-1`) entries. -/
def decompOld (ds : List (Int × Text)) : Text :=
  ((ds.filter (fun p => p.1 ≠ 1)).map Prod.snd).flatten

/-- The new text described by a `fast-diff` result: the concatenation of
the texts of the equal (`0`) and inserted (`1`) entries. -/
def decompNew (ds : List (Int × Text)) : Text :=
  ((ds.filter (fun p => p.1 ≠ -1)).map Prod.snd).flatten

/-- Well-formedness of a `fast-diff` result: every entry type is `-1`, `0`
or `1`. -/
def DiffResultWF (ds : List (Int × Text)) : Prop :=
  ∀ p ∈ ds, p.1 = -1 ∨ p.1 = 0 ∨ p.1 = 1

/-- The body of the final `map` of `lspDiff`: convert one `Diff` to an LSP
content change by translating its offsets to positions against the lines of
the old text.  `none` models the `Position not found` throw of
`charOffsetToLineAndChar`. -/
def toContentChange (oldLines : List Text) (d : Diff) : Option ContentChange :=
  match charOffsetToLineAndChar oldLines d.offset,
        charOffsetToLineAndChar oldLines (d.offset + d.length) with
  | some s, some e => some (ContentChange.incremental ⟨s, e⟩ d.length d.text)
  | _, _ => none

/-- Map a fallible function over a list, failing when any element fails
(the source's `map` over a function that can throw). -/
def mapOption {α β : Type} (f : α → Option β) : List α → Option (List β)
  | [] => some []
  | a :: rest =>
    match f a, mapOption f rest with
    | some b, some bs => some (b :: bs)
    | _, _ => none

/-- `lspDiff` of `src/tools/lsp.ts`, parametric in the `fast-diff` result
`ds`: build the diffs, optimize them, reverse the list, and convert the
offsets to positions against the lines of the old text. -/
def lspDiffFrom (oldText : Text) (ds : List (Int × Text)) : Option (List ContentChange) :=
  mapOption (toContentChange (splitLines oldText)) (optimizeDiff (diffAux 0 ds)).reverse

/-- `lspDiff (oldText, newText)`, with the `fast-diff` call instantiated by
the model above. -/
def lspDiff (oldText newText : Text) : Option (List ContentChange) :=
  lspDiffFrom oldText (fastDiff oldText newText)

/-! ### The document side: `vscode-languageserver-textdocument`

`updateDocument` in `src/language-client.ts` (and the repository's
test-suite) apply the produced content changes through
`TextDocument.update`, whose position arithmetic is embedded here.
-/

/-- `computeLineOffsets` of `vscode-languageserver-textdocument`, without
the leading `0`: the offsets just after every line break.  A line break is
`\r\n`, a lone `\r`, or `\n`. -/
def lineBreakOffsets : Text → List Nat
  | [] => []
  | [c] => if c = CR ∨ c = LF then [1] else []
  | c :: c2 :: rest =>
    if c = CR then
      if c2 = LF then 2 :: (lineBreakOffsets rest).map (· + 2)
      else 1 :: (lineBreakOffsets (c2 :: rest)).map (· + 1)
    else if c = LF then 1 :: (lineBreakOffsets (c2 :: rest)).map (· + 1)
    else (lineBreakOffsets (c2 :: rest)).map (· + 1)

/-- The line start offsets of a text (`getLineOffsets`). -/
def lineOffsets (t : Text) : List Nat := 0 :: lineBreakOffsets t

/-- `TextDocument.offsetAt`: clamp the position into the text.  A line
beyond the last yields the text length; otherwise the character is clamped
between the line start and the next line start (or the text length for the
last line). -/
def offsetAt (t : Text) (p : Position) : Nat :=
  ((lineOffsets t)[p.line]?).elim t.length (fun lineOffset =>
    max (min (lineOffset + p.character) (((lineOffsets t)[p.line + 1]?).getD t.length))
      lineOffset)

/-- `getWellformedRange`: swap the ends when the range is inverted. -/
def getWellformedRange (r : Range) : Range :=
  if r.rangeEnd.line < r.rangeStart.line ∨
     (r.rangeStart.line = r.rangeEnd.line ∧ r.rangeEnd.character < r.rangeStart.character) then
    ⟨r.rangeEnd, r.rangeStart⟩
  else r

/-- One step of `TextDocument.update`: a full change replaces the whole
text, an incremental change splices its text between the offsets of its
(well-formed) range computed against the current text. -/
def applyChange (t : Text) (c : ContentChange) : Text :=
  match c with
  | .full s => s
  | .incremental r _ s =>
    let r := getWellformedRange r
    let startOffset := offsetAt t r.rangeStart
    let endOffset := offsetAt t r.rangeEnd
    t.take startOffset ++ s ++ t.drop endOffset

/-- `TextDocument.update`: apply the changes in order, each against the
text as it evolves. -/
def applyContentChanges (t : Text) (cs : List ContentChange) : Text :=
  cs.foldl applyChange t

/-! ### Offset-level splice semantics used to reason about the pipeline -/

/-- Splice a single diff into a text at its offsets. -/
def spliceAt (t : Text) (d : Diff) : Text :=
  t.take d.offset ++ d.text ++ t.drop (d.offset + d.length)

/-- Denotation of an ascending, disjoint diff list over `t`, processed from
position `pos`: keep the text up to each diff's offset, emit its
replacement text, continue after its end. -/
def patchAux (t : Text) : Nat → List Diff → Text
  | pos, [] => t.drop pos
  | pos, d :: rest =>
    (t.drop pos).take (d.offset - pos) ++ d.text ++ patchAux t (d.offset + d.length) rest

/-- The diffs are ascending and disjoint, starting no earlier than `lo`. -/
def DiffChain : Nat → List Diff → Prop
  | _, [] => True
  | lo, d :: rest => lo ≤ d.offset ∧ DiffChain (d.offset + d.length) rest

/-- Strict version: consecutive diffs are separated by at least one kept
code unit (the shape `optimizeDiff` guarantees). -/
def DiffChainS : Nat → List Diff → Prop
  | _, [] => True
  | lo, d :: rest => lo ≤ d.offset ∧ DiffChainS (d.offset + d.length + 1) rest

/-! ### Lemmas about lines, offsets and positions -/

theorem lf_split (t : Text) :
    LF ∉ t ∨ ∃ l rest, t = l ++ LF :: rest ∧ LF ∉ l := by
  induction t with
  | nil => exact Or.inl (by simp)
  | cons c t' ih =>
    by_cases hc : c = LF
    · exact Or.inr ⟨[], t', by simp [hc], by simp⟩
    · rcases ih with h | ⟨l, rest, ht', hl⟩
      · refine Or.inl (fun hm => ?_)
        rcases List.mem_cons.mp hm with h1 | h2
        · exact hc h1.symm
        · exact h h2
      · refine Or.inr ⟨c :: l, rest, by simp [ht'], fun hm => ?_⟩
        rcases List.mem_cons.mp hm with h1 | h2
        · exact hc h1.symm
        · exact hl h2

theorem splitLines_no_lf (t : Text) (h : LF ∉ t) : splitLines t = [t] := by
  induction t with
  | nil => rfl
  | cons c t' ih =>
    have hc : c ≠ LF := fun hc => h (by simp [hc])
    have ht' : LF ∉ t' := fun hm => h (List.mem_cons_of_mem _ hm)
    rw [splitLines, if_neg hc, ih ht']

theorem splitLines_append_lf (l rest : Text) (hl : LF ∉ l) :
    splitLines (l ++ LF :: rest) = l :: splitLines rest := by
  induction l with
  | nil => simp [splitLines]
  | cons c l2 ih =>
    have hc : c ≠ LF := fun hc => hl (by simp [hc])
    have hl2 : LF ∉ l2 := fun hm => hl (List.mem_cons_of_mem _ hm)
    rw [List.cons_append, splitLines, if_neg hc, ih hl2]

theorem lineBreakOffsets_other (x : Nat) (hx1 : x ≠ CR) (hx2 : x ≠ LF) (rest : Text) :
    lineBreakOffsets (x :: rest) = (lineBreakOffsets rest).map (· + 1) := by
  match rest with
  | [] =>
    rw [show lineBreakOffsets [x] = if x = CR ∨ x = LF then [1] else [] from rfl,
        if_neg (by simp [hx1, hx2])]
    rfl
  | c2 :: r => rw [lineBreakOffsets, if_neg hx1, if_neg hx2]

theorem lineBreakOffsets_lf (rest : Text) :
    lineBreakOffsets (LF :: rest) = 1 :: (lineBreakOffsets rest).map (· + 1) := by
  have h1 : LF ≠ CR := by decide
  match rest with
  | [] => rfl
  | c2 :: r => rw [lineBreakOffsets, if_neg h1, if_pos rfl]

theorem head_break_ge (c : Text) (o : Nat) (hlf : LF ∉ c.take o) (hcr : CR ∉ c.take o) :
    ∀ b, (lineBreakOffsets c)[0]? = some b → o ≤ b := by
  induction c generalizing o with
  | nil => intro b hb; simp [lineBreakOffsets] at hb
  | cons x c' ih =>
    intro b hb
    match o with
    | 0 => exact Nat.zero_le b
    | o + 1 =>
      rw [List.take_succ_cons] at hlf hcr
      have hx2 : x ≠ LF := fun h => hlf (by simp [h])
      have hx1 : x ≠ CR := fun h => hcr (by simp [h])
      have hlf' : LF ∉ c'.take o := fun h => hlf (List.mem_cons_of_mem _ h)
      have hcr' : CR ∉ c'.take o := fun h => hcr (List.mem_cons_of_mem _ h)
      rw [lineBreakOffsets_other x hx1 hx2 c', List.getElem?_map] at hb
      rcases Option.map_eq_some'.mp hb with ⟨b', hb', hfb⟩
      have := ih o hlf' hcr' b' hb'
      omega

theorem offsetAt_eval (t : Text) (n ch v : Nat) (hv : (lineOffsets t)[n]? = some v) :
    offsetAt t ⟨n, ch⟩ =
      max (min (v + ch) (((lineOffsets t)[n + 1]?).getD t.length)) v := by
  rw [offsetAt]
  show ((lineOffsets t)[n]?).elim _ _ = _
  rw [hv]
  rfl

theorem offsetAt_eval_none (t : Text) (n ch : Nat) (hv : (lineOffsets t)[n]? = none) :
    offsetAt t ⟨n, ch⟩ = t.length := by
  rw [offsetAt]
  show ((lineOffsets t)[n]?).elim _ _ = _
  rw [hv]
  rfl

theorem offsetAt_line0 (c : Text) (o : Nat) (hlf : LF ∉ c.take o) (hcr : CR ∉ c.take o)
    (hlen : o ≤ c.length) : offsetAt c ⟨0, o⟩ = o := by
  rw [offsetAt_eval c 0 o 0 (by simp [lineOffsets])]
  have h1 : (lineOffsets c)[0 + 1]? = (lineBreakOffsets c)[0]? := by
    simp [lineOffsets]
  rw [h1]
  have hnext : o ≤ ((lineBreakOffsets c)[0]?).getD c.length := by
    cases hh : (lineBreakOffsets c)[0]? with
    | none => simpa using hlen
    | some b =>
      have := head_break_ge c o hlf hcr b hh
      simpa using this
  omega

theorem lineBreakOffsets_append (l c' : Text) (hlf : LF ∉ l) (hcr : CR ∉ l) :
    lineBreakOffsets (l ++ LF :: c') =
      (l.length + 1) :: (lineBreakOffsets c').map (· + (l.length + 1)) := by
  induction l with
  | nil => simpa using lineBreakOffsets_lf c'
  | cons x l2 ih =>
    have hx1 : x ≠ CR := fun h => hcr (by simp [h])
    have hx2 : x ≠ LF := fun h => hlf (by simp [h])
    have hlf2 : LF ∉ l2 := fun h => hlf (List.mem_cons_of_mem _ h)
    have hcr2 : CR ∉ l2 := fun h => hcr (List.mem_cons_of_mem _ h)
    rw [List.cons_append, lineBreakOffsets_other x hx1 hx2, ih hlf2 hcr2]
    simp only [List.map_cons, List.map_map, List.length_cons]
    exact congrArg (List.cons (l2.length + 1 + 1))
      (List.map_congr_left (fun b _ => by simp only [Function.comp_apply]; omega))

theorem offsetAt_cons_line (l c' : Text) (hlf : LF ∉ l) (hcr : CR ∉ l) (n ch : Nat) :
    offsetAt (l ++ LF :: c') ⟨n + 1, ch⟩ = l.length + 1 + offsetAt c' ⟨n, ch⟩ := by
  have hbig : lineOffsets (l ++ LF :: c') =
      0 :: (lineOffsets c').map (· + (l.length + 1)) := by
    rw [lineOffsets, lineBreakOffsets_append l c' hlf hcr, lineOffsets]
    simp
  have hlen : (l ++ LF :: c').length = l.length + 1 + c'.length := by
    simp
    omega
  have hget : ∀ m : Nat, (lineOffsets (l ++ LF :: c'))[m + 1]? =
      ((lineOffsets c')[m]?).map (· + (l.length + 1)) := by
    intro m
    rw [hbig, List.getElem?_cons_succ, List.getElem?_map]
  cases h1 : (lineOffsets c')[n]? with
  | none =>
    rw [offsetAt_eval_none _ _ _ (by rw [hget n, h1]; rfl),
        offsetAt_eval_none _ _ _ h1, hlen]
  | some v =>
    rw [offsetAt_eval _ _ _ _ (by rw [hget n, h1]; rfl),
        offsetAt_eval _ _ _ _ h1, hget (n + 1)]
    cases h2 : (lineOffsets c')[n + 1]? with
    | none =>
      simp only [Option.map_none', Option.getD_none, hlen]
      omega
    | some w =>
      simp only [Option.map_some', Option.getD_some, hlen]
      omega

theorem charOffset_some (old : Text) (o : Nat) (ho : o ≤ old.length) :
    ∃ p, charOffsetToLineAndChar (splitLines old) o = some p := by
  rcases lf_split old with h | ⟨l, rest, hold, hl⟩
  · refine ⟨⟨0, o⟩, ?_⟩
    rw [splitLines_no_lf old h, charOffsetToLineAndChar, if_pos ho]
  · rw [hold, splitLines_append_lf l rest hl]
    by_cases hle : o ≤ l.length
    · exact ⟨⟨0, o⟩, by rw [charOffsetToLineAndChar, if_pos hle]⟩
    · have ho' : o - (l.length + 1) ≤ rest.length := by
        rw [hold, List.length_append, List.length_cons] at ho
        omega
      obtain ⟨p, hp⟩ := charOffset_some rest (o - (l.length + 1)) ho'
      refine ⟨⟨p.line + 1, p.character⟩, ?_⟩
      rw [charOffsetToLineAndChar, if_neg hle, hp]
termination_by old.length
decreasing_by simp [hold]; omega

theorem charOffset_mono (ls : List Text) (o1 o2 : Nat) (h : o1 ≤ o2) (p1 p2 : Position)
    (h1 : charOffsetToLineAndChar ls o1 = some p1)
    (h2 : charOffsetToLineAndChar ls o2 = some p2) :
    p1.line < p2.line ∨ (p1.line = p2.line ∧ p1.character ≤ p2.character) := by
  induction ls generalizing o1 o2 p1 p2 with
  | nil => rw [charOffsetToLineAndChar] at h1; exact absurd h1 (by simp)
  | cons l ls ih =>
    rw [charOffsetToLineAndChar] at h1 h2
    by_cases ha : o1 ≤ l.length
    · rw [if_pos ha] at h1
      obtain rfl := Option.some.inj h1
      by_cases hb : o2 ≤ l.length
      · rw [if_pos hb] at h2
        obtain rfl := Option.some.inj h2
        exact Or.inr ⟨rfl, h⟩
      · rw [if_neg hb] at h2
        cases hrec : charOffsetToLineAndChar ls (o2 - (l.length + 1)) with
        | none => rw [hrec] at h2; exact absurd h2 (by simp)
        | some q =>
          rw [hrec] at h2
          obtain rfl := Option.some.inj h2
          exact Or.inl (Nat.succ_pos q.line)
    · have hb : ¬o2 ≤ l.length := fun hh => ha (le_trans h hh)
      rw [if_neg ha] at h1
      rw [if_neg hb] at h2
      cases hrec1 : charOffsetToLineAndChar ls (o1 - (l.length + 1)) with
      | none => rw [hrec1] at h1; exact absurd h1 (by simp)
      | some q1 =>
        cases hrec2 : charOffsetToLineAndChar ls (o2 - (l.length + 1)) with
        | none => rw [hrec2] at h2; exact absurd h2 (by simp)
        | some q2 =>
          rw [hrec1] at h1
          rw [hrec2] at h2
          obtain rfl := Option.some.inj h1
          obtain rfl := Option.some.inj h2
          have hle' : o1 - (l.length + 1) ≤ o2 - (l.length + 1) := by omega
          rcases ih (o1 - (l.length + 1)) (o2 - (l.length + 1)) hle' q1 q2 hrec1 hrec2 with
            hlt | ⟨heq, hch⟩
          · exact Or.inl (by simpa using hlt)
          · exact Or.inr ⟨by simpa using heq, hch⟩

/-- The central simulation lemma: a position computed by
`charOffsetToLineAndChar` against the lines of a CR-free text `old` maps
back, through `TextDocument.offsetAt`, to the original offset — in any text
`c` that agrees with `old` on the first `o` code units. -/
theorem offsetAt_charOffset (old : Text) (hcr : CR ∉ old) (o : Nat) (ho : o ≤ old.length)
    (p : Position) (hp : charOffsetToLineAndChar (splitLines old) o = some p)
    (c : Text) (hpre : c.take o = old.take o) :
    offsetAt c p = o := by
  have hlenc : o ≤ c.length := by
    have := congrArg List.length hpre
    rw [List.length_take, List.length_take] at this
    omega
  rcases lf_split old with h | ⟨l, rest, hold, hl⟩
  · rw [splitLines_no_lf old h, charOffsetToLineAndChar, if_pos ho] at hp
    obtain rfl := Option.some.inj hp
    refine offsetAt_line0 c o ?_ ?_ hlenc
    · rw [hpre]; exact fun hm => h (List.take_subset o old hm)
    · rw [hpre]; exact fun hm => hcr (List.take_subset o old hm)
  · rw [hold] at hcr ho hpre
    have hcrl : CR ∉ l := fun hm => hcr (by simp [hm])
    have hcrrest : CR ∉ rest := fun hm => hcr (by simp [hm])
    rw [hold, splitLines_append_lf l rest hl, charOffsetToLineAndChar] at hp
    by_cases hle : o ≤ l.length
    · rw [if_pos hle] at hp
      obtain rfl := Option.some.inj hp
      have htake : (l ++ LF :: rest).take o = l.take o := by
        rw [List.take_append_eq_append_take, Nat.sub_eq_zero_of_le hle, List.take_zero,
          List.append_nil]
      refine offsetAt_line0 c o ?_ ?_ hlenc
      · rw [hpre, htake]; exact fun hm => hl (List.take_subset o l hm)
      · rw [hpre, htake]; exact fun hm => hcrl (List.take_subset o l hm)
    · rw [if_neg hle] at hp
      cases hrec : charOffsetToLineAndChar (splitLines rest) (o - (l.length + 1)) with
      | none => rw [hrec] at hp; exact absurd hp (by simp)
      | some q =>
        rw [hrec] at hp
        obtain rfl := Option.some.inj hp
        have hol : l.length + 1 ≤ o := by omega
        have hlenold : (l ++ LF :: rest).length = l.length + 1 + rest.length := by
          rw [List.length_append, List.length_cons]
          omega
        have ho' : o - (l.length + 1) ≤ rest.length := by omega
        have holdtake : (l ++ LF :: rest).take (l.length + 1) = l ++ [LF] := by
          rw [List.take_append_eq_append_take, List.take_of_length_le (by omega)]
          simp
        have hc1 : c.take (l.length + 1) = l ++ [LF] := by
          have h1 := congrArg (List.take (l.length + 1)) hpre
          rw [List.take_take, List.take_take, Nat.min_eq_left hol] at h1
          rw [h1, holdtake]
        have hcdecomp : c = l ++ LF :: c.drop (l.length + 1) := by
          conv_lhs => rw [← List.take_append_drop (l.length + 1) c]
          rw [hc1]
          simp
        have hpre' : (c.drop (l.length + 1)).take (o - (l.length + 1)) =
            rest.take (o - (l.length + 1)) := by
          have h1 := congrArg (List.drop (l.length + 1)) hpre
          rw [List.drop_take, List.drop_take] at h1
          have h2 : (l ++ LF :: rest).drop (l.length + 1) = rest := by
            rw [show l ++ LF :: rest = (l ++ [LF]) ++ rest by simp,
              show l.length + 1 = (l ++ [LF]).length by simp, List.drop_left]
          rw [h2] at h1
          exact h1
        have IH := offsetAt_charOffset rest hcrrest (o - (l.length + 1)) ho' q hrec
          (c.drop (l.length + 1)) hpre'
        conv_lhs => rw [hcdecomp]
        rw [offsetAt_cons_line l (c.drop (l.length + 1)) hl hcrl q.line q.character]
        have : offsetAt (c.drop (l.length + 1)) ⟨q.line, q.character⟩ = o - (l.length + 1) := IH
        omega
termination_by old.length
decreasing_by simp [hold]; omega

/-! ### Lemmas about the diff pipeline -/

/-- Every diff in the list ends no later than `hi`. -/
def DiffBound (hi : Nat) (ds : List Diff) : Prop :=
  ∀ d ∈ ds, d.offset + d.length ≤ hi

theorem DiffChain.chain_mono {a b : Nat} {ds : List Diff} (h : a ≤ b) (hc : DiffChain b ds) :
    DiffChain a ds := by
  cases ds with
  | nil => trivial
  | cons d rest => exact ⟨le_trans h hc.1, hc.2⟩

theorem DiffChainS.chainS_mono {a b : Nat} {ds : List Diff} (h : a ≤ b) (hc : DiffChainS b ds) :
    DiffChainS a ds := by
  cases ds with
  | nil => trivial
  | cons d rest => exact ⟨le_trans h hc.1, hc.2⟩

theorem DiffChainS.toChain {lo : Nat} {ds : List Diff} (hc : DiffChainS lo ds) :
    DiffChain lo ds := by
  induction ds generalizing lo with
  | nil => trivial
  | cons d rest ih => exact ⟨hc.1, DiffChain.chain_mono (by omega) (ih hc.2)⟩

theorem DiffChain.le_of_mem {lo : Nat} {ds : List Diff} (hc : DiffChain lo ds) :
    ∀ d ∈ ds, lo ≤ d.offset := by
  induction ds generalizing lo with
  | nil => intro d hd; cases hd
  | cons e rest ih =>
    intro d hd
    rcases List.mem_cons.mp hd with rfl | hd'
    · exact hc.1
    · exact le_trans (le_trans hc.1 (by omega)) (ih hc.2 d hd')

theorem DiffChain.append_left {lo : Nat} {ds₁ ds₂ : List Diff}
    (hc : DiffChain lo (ds₁ ++ ds₂)) : DiffChain lo ds₁ := by
  induction ds₁ generalizing lo with
  | nil => trivial
  | cons d rest ih => exact ⟨hc.1, ih hc.2⟩

theorem DiffChain.before_last {lo : Nat} {ds₁ : List Diff} {d : Diff}
    (hc : DiffChain lo (ds₁ ++ [d])) : ∀ e ∈ ds₁, e.offset + e.length ≤ d.offset := by
  induction ds₁ generalizing lo with
  | nil => intro e he; cases he
  | cons e rest ih =>
    intro x hx
    rcases List.mem_cons.mp hx with rfl | hx'
    · exact hc.2.le_of_mem d (by simp)
    · exact ih hc.2 x hx'

theorem diffAux_chain (ds : List (Int × Text)) (off : Nat) :
    DiffChain off (diffAux off ds) := by
  induction ds generalizing off with
  | nil => trivial
  | cons p rest ih =>
    obtain ⟨ty, s⟩ := p
    rw [diffAux]
    by_cases h1 : ty = -1
    · rw [if_pos h1]
      exact ⟨le_refl _, ih (off + s.length)⟩
    · rw [if_neg h1]
      by_cases h2 : ty = 1
      · rw [if_pos h2]
        refine ⟨le_refl _, ?_⟩
        show DiffChain (off + 0) (diffAux off rest)
        exact DiffChain.chain_mono (by omega) (ih off)
      · rw [if_neg h2]
        exact DiffChain.chain_mono (by omega) (ih (off + s.length))

theorem decompOld_cons (ty : Int) (s : Text) (rest : List (Int × Text)) :
    decompOld ((ty, s) :: rest) =
      if ty = 1 then decompOld rest else s ++ decompOld rest := by
  by_cases h : ty = 1
  · simp [decompOld, List.filter_cons, h]
  · simp [decompOld, List.filter_cons, h]

theorem decompNew_cons (ty : Int) (s : Text) (rest : List (Int × Text)) :
    decompNew ((ty, s) :: rest) =
      if ty = -1 then decompNew rest else s ++ decompNew rest := by
  by_cases h : ty = -1
  · simp [decompNew, List.filter_cons, h]
  · simp [decompNew, List.filter_cons, h]

theorem diffAux_bound (ds : List (Int × Text)) (off : Nat) :
    DiffBound (off + (decompOld ds).length) (diffAux off ds) := by
  induction ds generalizing off with
  | nil => intro d hd; cases hd
  | cons p rest ih =>
    obtain ⟨ty, s⟩ := p
    rw [diffAux, decompOld_cons]
    by_cases h1 : ty = -1
    · rw [if_pos h1, if_neg (by rw [h1]; decide)]
      intro d hd
      rcases List.mem_cons.mp hd with rfl | hd'
      · simp only [List.length_append]
        omega
      · have := ih (off + s.length) d hd'
        simp only [List.length_append]
        omega
    · rw [if_neg h1]
      by_cases h2 : ty = 1
      · rw [if_pos h2, if_pos h2]
        intro d hd
        rcases List.mem_cons.mp hd with rfl | hd'
        · show off + 0 ≤ off + (decompOld rest).length
          omega
        · exact ih off d hd'
      · rw [if_neg h2, if_neg h2]
        intro d hd
        have := ih (off + s.length) d hd
        simp only [List.length_append]
        omega

theorem optimizeDiffAux_chainS (ds : List Diff) :
    ∀ last : Diff, DiffChain (last.offset + last.length) ds →
      DiffChainS last.offset (optimizeDiffAux last ds) := by
  induction ds with
  | nil => intro last _; exact ⟨le_refl _, trivial⟩
  | cons d rest ih =>
    intro last h
    rw [optimizeDiffAux]
    by_cases hm : d.offset = last.offset + last.length
    · rw [if_pos hm]
      have h' : DiffChain (last.offset + (last.length + d.length)) rest :=
        DiffChain.chain_mono (by omega) h.2
      exact ih ⟨last.offset, last.length + d.length, last.text ++ d.text⟩ h'
    · rw [if_neg hm]
      refine ⟨le_refl _, ?_⟩
      have hd : last.offset + last.length + 1 ≤ d.offset := by
        have := h.1
        omega
      exact DiffChainS.chainS_mono hd (ih d h.2)

theorem optimizeDiffAux_bound (ds : List Diff) (hi : Nat) :
    ∀ last : Diff, last.offset + last.length ≤ hi → DiffBound hi ds →
      DiffBound hi (optimizeDiffAux last ds) := by
  induction ds with
  | nil =>
    intro last h1 _ d hd
    rw [optimizeDiffAux] at hd
    rcases List.mem_singleton.mp hd with rfl
    exact h1
  | cons d rest ih =>
    intro last h1 h2
    rw [optimizeDiffAux]
    by_cases hm : d.offset = last.offset + last.length
    · rw [if_pos hm]
      apply ih
      · have hd2 := h2 d (by simp)
        show last.offset + (last.length + d.length) ≤ hi
        omega
      · exact fun e he => h2 e (by simp [he])
    · rw [if_neg hm]
      intro e he
      rcases List.mem_cons.mp he with rfl | he'
      · exact h1
      · exact ih d (h2 d (by simp)) (fun x hx => h2 x (by simp [hx])) e he'

theorem drop_drop_eq (t : Text) (a b : Nat) (h : a ≤ b) :
    (t.drop a).drop (b - a) = t.drop b := by
  rw [List.drop_drop]
  congr 1
  omega

theorem take_drop_split (t : Text) (a b c : Nat) (hab : a ≤ b) (hbc : b ≤ c) :
    (t.drop a).take (c - a) = (t.drop a).take (b - a) ++ (t.drop b).take (c - b) := by
  have h1 : c - a = (b - a) + (c - b) := by omega
  rw [h1, List.take_add, drop_drop_eq t a b hab]

theorem patchAux_shift (t : Text) (ds : List Diff) (off off2 : Nat) (h : off ≤ off2)
    (hch : DiffChain off2 ds) :
    patchAux t off ds = (t.drop off).take (off2 - off) ++ patchAux t off2 ds := by
  cases ds with
  | nil =>
    rw [patchAux, patchAux, ← drop_drop_eq t off off2 h, List.take_append_drop]
  | cons d rest =>
    rw [patchAux, patchAux, take_drop_split t off off2 d.offset h hch.1]
    simp [List.append_assoc]

theorem patchAux_diffAux (t : Text) (ds : List (Int × Text)) (off : Nat)
    (h : t.drop off = decompOld ds) :
    patchAux t off (diffAux off ds) = decompNew ds := by
  induction ds generalizing off with
  | nil =>
    rw [diffAux, patchAux, h]
    rfl
  | cons p rest ih =>
    obtain ⟨ty, s⟩ := p
    rw [diffAux]
    by_cases h1 : ty = -1
    · subst h1
      rw [decompOld_cons, if_neg (by decide)] at h
      have h' : t.drop (off + s.length) = decompOld rest := by
        have h2 := congrArg (List.drop s.length) h
        rw [List.drop_drop, List.drop_left] at h2
        exact h2
      rw [if_pos rfl, patchAux, decompNew_cons, if_pos rfl]
      simp only [Nat.sub_self, List.take_zero, List.nil_append]
      exact ih (off + s.length) h'
    · rw [if_neg h1]
      by_cases h2 : ty = 1
      · subst h2
        rw [decompOld_cons, if_pos rfl] at h
        rw [if_pos rfl, patchAux, decompNew_cons, if_neg (by decide)]
        simp only [Nat.sub_self, List.take_zero, List.nil_append]
        exact congrArg (s ++ ·) (ih off h)
      · rw [if_neg h2]
        rw [decompOld_cons, if_neg h2] at h
        rw [patchAux_shift t _ off (off + s.length) (by omega)
          (diffAux_chain rest (off + s.length))]
        rw [decompNew_cons, if_neg h1]
        rw [show off + s.length - off = s.length by omega]
        have hfirst : (t.drop off).take s.length = s := by
          rw [h, List.take_left]
        rw [hfirst]
        have h' : t.drop (off + s.length) = decompOld rest := by
          have h3 := congrArg (List.drop s.length) h
          rw [List.drop_drop, List.drop_left] at h3
          exact h3
        exact congrArg (s ++ ·) (ih (off + s.length) h')

theorem patchAux_optimizeDiffAux (t : Text) (ds : List Diff) :
    ∀ (last : Diff) (pos : Nat),
      patchAux t pos (optimizeDiffAux last ds) = patchAux t pos (last :: ds) := by
  induction ds with
  | nil => intro last pos; rfl
  | cons d rest ih =>
    intro last pos
    rw [optimizeDiffAux]
    by_cases hm : d.offset = last.offset + last.length
    · rw [if_pos hm, ih]
      rw [patchAux, patchAux, patchAux]
      show (t.drop pos).take (last.offset - pos) ++ (last.text ++ d.text) ++
          patchAux t (last.offset + (last.length + d.length)) rest = _
      rw [hm]
      simp only [Nat.sub_self, List.take_zero, List.nil_append, List.append_assoc]
      rw [show last.offset + (last.length + d.length) =
        last.offset + last.length + d.length by omega]
    · rw [if_neg hm, patchAux, patchAux, ih]

/-- `optimizeDiff` does not change the denotation of a diff list. -/
theorem patchAux_optimizeDiff (t : Text) (ds : List Diff) (pos : Nat) :
    patchAux t pos (optimizeDiff ds) = patchAux t pos ds := by
  cases ds with
  | nil => rfl
  | cons d rest => exact patchAux_optimizeDiffAux t rest d pos

theorem splice_take_front (t : Text) (d : Diff) (m : Nat) (hm : m ≤ d.offset)
    (hd : d.offset ≤ t.length) :
    (spliceAt t d).take m = t.take m := by
  have hA : (t.take d.offset).length = d.offset := by
    rw [List.length_take]
    omega
  rw [spliceAt, List.take_append_of_le_length (by rw [List.length_append, hA]; omega),
    List.take_append_of_le_length (by rw [hA]; omega), List.take_take,
    Nat.min_eq_left hm]

theorem patchAux_snoc (t : Text) (d : Diff) (hd : d.offset + d.length ≤ t.length)
    (ds₁ : List Diff) :
    ∀ pos : Nat, DiffChain pos (ds₁ ++ [d]) →
      patchAux t pos (ds₁ ++ [d]) = patchAux (spliceAt t d) pos ds₁ := by
  induction ds₁ with
  | nil =>
    intro pos hch
    have hpos : pos ≤ d.offset := hch.1
    have hA : (t.take d.offset).length = d.offset := by
      rw [List.length_take]
      omega
    rw [List.nil_append, patchAux, patchAux, patchAux, spliceAt,
      List.drop_append_of_le_length (by rw [List.length_append, hA]; omega),
      List.drop_append_of_le_length (by rw [hA]; omega), List.drop_take]
  | cons e rest ih =>
    intro pos hch
    rw [List.cons_append, patchAux, patchAux, ih (e.offset + e.length) hch.2]
    have he : e.offset ≤ d.offset := by
      have h1 := hch.before_last e (by simp)
      omega
    have h1 : (spliceAt t d).take e.offset = t.take e.offset := by
      rw [splice_take_front t d e.offset he (by omega)]
    have h2 : ((spliceAt t d).drop pos).take (e.offset - pos) =
        (t.drop pos).take (e.offset - pos) := by
      rw [← List.drop_take, h1, List.drop_take]
    rw [h2]

theorem mapOption_some {α β : Type} (f : α → Option β) (l : List α)
    (h : ∀ a ∈ l, ∃ b, f a = some b) :
    ∃ bs, mapOption f l = some bs ∧ List.Forall₂ (fun a b => f a = some b) l bs := by
  induction l with
  | nil => exact ⟨[], rfl, List.Forall₂.nil⟩
  | cons a rest ih =>
    obtain ⟨b, hb⟩ := h a (by simp)
    obtain ⟨bs, hbs, hf⟩ := ih (fun x hx => h x (by simp [hx]))
    refine ⟨b :: bs, ?_, List.Forall₂.cons hb hf⟩
    rw [mapOption, hb, hbs]

/-- Applying the converted (reversed) content changes of an ascending,
disjoint, in-bounds diff list — through the `TextDocument.update`
semantics — computes the offset-level denotation of the diff list. -/
theorem applyChanges_patchAux (old : Text) (hcr : CR ∉ old) (ds : List Diff) :
    ∀ (cur : Text) (k : Nat) (cs : List ContentChange),
      DiffChain 0 ds → DiffBound k ds → k ≤ old.length → cur.take k = old.take k →
      List.Forall₂ (fun d c => toContentChange (splitLines old) d = some c) ds.reverse cs →
      applyContentChanges cur cs = patchAux cur 0 ds := by
  induction ds using List.reverseRecOn with
  | nil =>
    intro cur k cs _ _ _ _ hf
    rw [List.reverse_nil] at hf
    cases hf
    simp [applyContentChanges, patchAux]
  | append_singleton ds₁ d ih =>
    intro cur k cs hch hbd hk hpre hf
    rw [List.reverse_append, List.reverse_singleton, List.singleton_append] at hf
    cases hf with
    | cons hc hf' =>
      rename_i c cs'
      have hdmem : d ∈ ds₁ ++ [d] := by simp
      have hdend : d.offset + d.length ≤ k := hbd d hdmem
      have hdendold : d.offset + d.length ≤ old.length := le_trans hdend hk
      have hklen : k ≤ cur.length := by
        have := congrArg List.length hpre
        rw [List.length_take, List.length_take] at this
        omega
      have hpre_at : ∀ o : Nat, o ≤ k → cur.take o = old.take o := by
        intro o hok
        have h1 := congrArg (List.take o) hpre
        rwa [List.take_take, List.take_take, Nat.min_eq_left hok] at h1
      rw [toContentChange] at hc
      cases hs : charOffsetToLineAndChar (splitLines old) d.offset with
      | none => rw [hs] at hc; exact absurd hc (by simp)
      | some ps =>
        cases he : charOffsetToLineAndChar (splitLines old) (d.offset + d.length) with
        | none => rw [hs, he] at hc; exact absurd hc (by simp)
        | some pe =>
          rw [hs, he] at hc
          obtain rfl := Option.some.inj hc
          have hostart : offsetAt cur ps = d.offset :=
            offsetAt_charOffset old hcr d.offset (by omega) ps hs cur
              (hpre_at d.offset (by omega))
          have hoend : offsetAt cur pe = d.offset + d.length :=
            offsetAt_charOffset old hcr (d.offset + d.length) hdendold pe he cur
              (hpre_at (d.offset + d.length) hdend)
          have hcond : ¬(pe.line < ps.line ∨
              (ps.line = pe.line ∧ pe.character < ps.character)) := by
            rcases charOffset_mono _ _ _ (by omega) ps pe hs he with hlt | ⟨heq, hch2⟩ <;>
              (rintro (hb | ⟨hb1, hb2⟩) <;> omega)
          have happly : applyChange cur (ContentChange.incremental ⟨ps, pe⟩ d.length d.text) =
              spliceAt cur d := by
            rw [applyChange]
            have hwf : getWellformedRange ⟨ps, pe⟩ = ⟨ps, pe⟩ := by
              rw [getWellformedRange]
              exact if_neg hcond
            rw [hwf]
            show cur.take (offsetAt cur ps) ++ d.text ++ cur.drop (offsetAt cur pe) = _
            rw [hostart, hoend, spliceAt]
          rw [applyContentChanges, List.foldl_cons, ← applyContentChanges, happly]
          have IH := ih (spliceAt cur d) d.offset cs' hch.append_left
            (fun e hme => hch.before_last e hme)
            (by omega)
            (by
              rw [splice_take_front cur d d.offset (le_refl _) (by omega)]
              exact hpre_at d.offset (by omega))
            hf'
          rw [IH, ← patchAux_snoc cur d (by omega) ds₁ 0 hch]

/-- Round trip of the diff pipeline at the offset level, parametric in any
`fast-diff` result describing the pair `(old, new)`. -/
theorem lspDiffFrom_roundtrip (old new : Text) (ds : List (Int × Text))
    (hold : decompOld ds = old) (hnew : decompNew ds = new) (hcr : CR ∉ old) :
    ∃ cs, lspDiffFrom old ds = some cs ∧ applyContentChanges old cs = new := by
  have hchain0 : DiffChain 0 (diffAux 0 ds) := diffAux_chain ds 0
  have hbound0 : DiffBound old.length (diffAux 0 ds) := by
    have := diffAux_bound ds 0
    rw [hold] at this
    intro d hd
    have h2 := this d hd
    omega
  have hchainS : DiffChainS 0 (optimizeDiff (diffAux 0 ds)) := by
    cases h : diffAux 0 ds with
    | nil => trivial
    | cons e rest =>
      have := hchain0
      rw [h] at this
      rw [optimizeDiff]
      exact DiffChainS.chainS_mono (Nat.zero_le _) (optimizeDiffAux_chainS rest e this.2)
  have hbound : DiffBound old.length (optimizeDiff (diffAux 0 ds)) := by
    cases h : diffAux 0 ds with
    | nil => intro e he; cases he
    | cons e rest =>
      have hb := hbound0
      rw [h] at hb
      rw [optimizeDiff]
      exact optimizeDiffAux_bound rest old.length e (hb e (by simp))
        (fun x hx => hb x (by simp [hx]))
  have hsome : ∀ d ∈ (optimizeDiff (diffAux 0 ds)).reverse,
      ∃ c, toContentChange (splitLines old) d = some c := by
    intro d hd
    rw [List.mem_reverse] at hd
    have hdb := hbound d hd
    obtain ⟨ps, hps⟩ := charOffset_some old d.offset (by omega)
    obtain ⟨pe, hpe⟩ := charOffset_some old (d.offset + d.length) (by omega)
    exact ⟨ContentChange.incremental ⟨ps, pe⟩ d.length d.text,
      by rw [toContentChange, hps, hpe]⟩
  obtain ⟨cs, hcs, hfall⟩ := mapOption_some _ _ hsome
  refine ⟨cs, hcs, ?_⟩
  have happ := applyChanges_patchAux old hcr (optimizeDiff (diffAux 0 ds)) old old.length cs
    hchainS.toChain hbound (le_refl _) rfl hfall
  rw [happ, patchAux_optimizeDiff, patchAux_diffAux old ds 0 (by rw [List.drop_zero, hold]),
    hnew]

theorem lspDiffFrom_some (old : Text) (ds : List (Int × Text))
    (hold : decompOld ds = old) :
    ∃ cs, lspDiffFrom old ds = some cs := by
  have hbound0 : DiffBound old.length (diffAux 0 ds) := by
    have := diffAux_bound ds 0
    rw [hold] at this
    intro d hd
    have h2 := this d hd
    omega
  have hbound : DiffBound old.length (optimizeDiff (diffAux 0 ds)) := by
    cases h : diffAux 0 ds with
    | nil => intro e he; cases he
    | cons e rest =>
      have hb := hbound0
      rw [h] at hb
      rw [optimizeDiff]
      exact optimizeDiffAux_bound rest old.length e (hb e (by simp))
        (fun x hx => hb x (by simp [hx]))
  have hsome : ∀ d ∈ (optimizeDiff (diffAux 0 ds)).reverse,
      ∃ c, toContentChange (splitLines old) d = some c := by
    intro d hd
    rw [List.mem_reverse] at hd
    have hdb := hbound d hd
    obtain ⟨ps, hps⟩ := charOffset_some old d.offset (by omega)
    obtain ⟨pe, hpe⟩ := charOffset_some old (d.offset + d.length) (by omega)
    exact ⟨ContentChange.incremental ⟨ps, pe⟩ d.length d.text,
      by rw [toContentChange, hps, hpe]⟩
  obtain ⟨cs, hcs, _⟩ := mapOption_some _ _ hsome
  exact ⟨cs, hcs⟩

/-- C1 (amended): for every pair of texts `(old, new)` in which `old`
contains no carriage-return code unit, and for every `fast-diff` result
`ds` describing the pair (its deleted-plus-equal entries concatenate to
`old`, its inserted-plus-equal entries to `new`), `lspDiff` succeeds and
applying the returned content-change list to `old` — each range interpreted
through `TextDocument.update` against the text as it evolves, in the
returned order — yields `new`; and the single full-text replacement
fallback `[{text: new}]` also yields `new`.  (As the counterexample shows,
the unrestricted claim fails when `old` contains a carriage return, because
`charOffsetToLineAndChar` splits lines only at `\n` while the document
model also breaks lines at `\r`.) -/
theorem lspDiff_roundtrip_noCR (old new : Text) (ds : List (Int × Text))
    (hold : decompOld ds = old) (hnew : decompNew ds = new) (hcr : CR ∉ old) :
    (∃ cs, lspDiffFrom old ds = some cs ∧ applyContentChanges old cs = new) ∧
    applyContentChanges old [ContentChange.full new] = new :=
  ⟨lspDiffFrom_roundtrip old new ds hold hnew hcr, rfl⟩

/-- Witness for C1 at a concrete input: `old = "ab\nc"`, `new = "aX\nYc"`
(code units), with the `fast-diff` model describing the pair. -/
theorem lspDiff_roundtrip_noCR_witness :
    (∃ cs, lspDiffFrom [97, 98, 10, 99] (fastDiff [97, 98, 10, 99] [97, 88, 10, 89, 99]) =
        some cs ∧
      applyContentChanges [97, 98, 10, 99] cs = [97, 88, 10, 89, 99]) ∧
    applyContentChanges [97, 98, 10, 99] [ContentChange.full [97, 88, 10, 89, 99]] =
      [97, 88, 10, 89, 99] :=
  lspDiff_roundtrip_noCR [97, 98, 10, 99] [97, 88, 10, 89, 99] _ (by decide) (by decide)
    (by decide)

/-- Counterexample to C1 as stated: for `old = "\ra"` and `new = "\rb"`
(`[13, 97]` and `[13, 98]`), `lspDiff` produces a single change whose range
`(0,1)-(0,2)` is computed against `\n`-split lines, but the document model
treats the `\r` as a line break and clamps the range's offsets, so applying
the change yields `"\rba"` (`[13, 98, 97]`), not `new`. -/
theorem lspDiff_roundtrip_cr_counterexample :
    lspDiff [13, 97] [13, 98] =
      some [ContentChange.incremental ⟨⟨0, 1⟩, ⟨0, 2⟩⟩ 1 [98]] ∧
    applyContentChanges [13, 97]
      [ContentChange.incremental ⟨⟨0, 1⟩, ⟨0, 2⟩⟩ 1 [98]] = [13, 98, 97] ∧
    applyContentChanges [13, 97]
      [ContentChange.incremental ⟨⟨0, 1⟩, ⟨0, 2⟩⟩ 1 [98]] ≠ [13, 98] := by
  decide

/-- C9: for every old text and every `fast-diff` result describing it
(no carriage-return restriction), `lspDiff` terminates with a value —
every offset it hands to `charOffsetToLineAndChar` is at most the length
of the old text, so the `Position not found` throw branch is unreachable
from `lspDiff`. -/
theorem lspDiff_never_throws (old : Text) (ds : List (Int × Text))
    (hold : decompOld ds = old) :
    ∃ cs, lspDiffFrom old ds = some cs :=
  lspDiffFrom_some old ds hold

/-- Witness for C9 at a concrete input containing both CR and LF:
`old = "\r\na"`, `new = "b"`. -/
theorem lspDiff_never_throws_witness :
    ∃ cs, lspDiffFrom [13, 10, 97] (fastDiff [13, 10, 97] [98]) = some cs :=
  lspDiff_never_throws [13, 10, 97] _ (by decide)

/-! ### The `LanguageClient` document-synchronization state machine

Embeds `openDocument`, `updateDocument` and `closeDocument` of
`src/language-client.ts`, restricted to the state the claims are about:
the `currentDocuments` map and the order of observable effects
(notifications sent, cache resets, events fired).  URIs and language ids
are modelled as naturals.
-/

/-- A stored `TextDocument`: language id, version and text. -/
structure Doc where
  languageId : Nat
  version : Nat
  text : Text
deriving DecidableEq

/-- `TextDocumentSyncKind` (`none` = 0, `full` = 1, `incremental` = 2). -/
inductive SyncKind where
  | none
  | full
  | incremental
deriving DecidableEq

/-- Observable effects of the document-synchronization methods, recorded in
emission order. -/
inductive Effect where
  | didOpenSent (uri version : Nat)
  | didChangeSent (uri version : Nat) (contentChanges : List ContentChange)
  | didCloseSent (uri : Nat)
  | cacheReset
  | firedDocumentOpen (uri : Nat)
  | firedDocumentChanged (uri : Nat)
  | firedDocumentClosed (uri : Nat)
deriving DecidableEq

/-- The modelled `LanguageClient` state: the `currentDocuments` map (an
association list URI ↦ document) and whether `options.createCache` was
provided (`this.cache != null`). -/
structure ClientState where
  currentDocuments : List (Nat × Doc)
  hasCache : Bool
deriving DecidableEq

/-- `Map.get`. -/
def findDoc (docs : List (Nat × Doc)) (uri : Nat) : Option Doc :=
  match docs with
  | [] => none
  | (u, d) :: rest => if u = uri then some d else findDoc rest uri

/-- `Map.set`. -/
def setDoc (docs : List (Nat × Doc)) (uri : Nat) (d : Doc) : List (Nat × Doc) :=
  match docs with
  | [] => [(uri, d)]
  | (u, e) :: rest => if u = uri then (uri, d) :: rest else (u, e) :: setDoc rest uri d

/-- `Map.delete`. -/
def removeDoc (docs : List (Nat × Doc)) (uri : Nat) : List (Nat × Doc) :=
  docs.filter (fun p => p.1 ≠ uri)

/-- `openDocument` (`src/language-client.ts`): no-op when the URI is
already open; otherwise store a fresh copy with version 1, send `didOpen`
when the server wants open/close notifications for this document
(`openOpts`), fire `onDocumentOpen`, and reset the cache — in that order. -/
def openDocument (st : ClientState) (uri langId : Nat) (text : Text) (openOpts : Bool) :
    ClientState × List Effect :=
  if (findDoc st.currentDocuments uri).isSome then (st, [])
  else
    (⟨setDoc st.currentDocuments uri ⟨langId, 1, text⟩, st.hasCache⟩,
      (if openOpts then [Effect.didOpenSent uri 1] else []) ++
      [Effect.firedDocumentOpen uri] ++
      (if st.hasCache then [Effect.cacheReset] else []))

/-- Whether `updateDocument` sends a `didChange` notification:
`textDocumentChangeOptions != null && syncKind !== None`. -/
def sendsDidChange (chg : Option SyncKind) : Bool :=
  match chg with
  | some SyncKind.full => true
  | some SyncKind.incremental => true
  | _ => false

/-- `updateDocument` (`src/language-client.ts`).  `chg` is the result of
`getTextDocumentNotificationOptions(DidChangeTextDocumentNotification…)`
(`none` = no registration, otherwise its sync kind); `timedOut` tells
whether the 20 ms diff budget was exceeded (`runWithTimeout` threw).  The
source dereferences a missing document (`.get(uri)!`), modelled as `none`.
Effect order: send `didChange`, reset the cache, store the updated
document, fire `onDocumentChanged`. -/
def updateDocument (st : ClientState) (uri : Nat) (newText : Text)
    (chg : Option SyncKind) (timedOut : Bool) : Option (ClientState × List Effect) :=
  match findDoc st.currentDocuments uri with
  | none => none
  | some cur =>
    if cur.text = newText then some (st, [])
    else
      let contentChanges :=
        if chg = some SyncKind.incremental then
          if timedOut then [ContentChange.full newText]
          else
            match lspDiff cur.text newText with
            | some cs => cs
            | none => [ContentChange.full newText]
        else [ContentChange.full newText]
      let newDoc : Doc :=
        ⟨cur.languageId, cur.version + 1, applyContentChanges cur.text contentChanges⟩
      some (⟨setDoc st.currentDocuments uri newDoc, st.hasCache⟩,
        (if sendsDidChange chg then
          [Effect.didChangeSent uri (cur.version + 1) contentChanges] else []) ++
        (if st.hasCache then [Effect.cacheReset] else []) ++
        [Effect.firedDocumentChanged uri])

/-- `closeDocument` (`src/language-client.ts`): no-op while the document is
still open in some synchronized tracker; otherwise send `didClose` when
applicable (`closeOpts`), delete the document, reset the cache, fire
`onDocumentClosed`. -/
def closeDocument (st : ClientState) (uri : Nat) (stillOpenElsewhere closeOpts : Bool) :
    Option (ClientState × List Effect) :=
  if stillOpenElsewhere then some (st, [])
  else
    match findDoc st.currentDocuments uri with
    | none => none
    | some _ =>
      some (⟨removeDoc st.currentDocuments uri, st.hasCache⟩,
        (if closeOpts then [Effect.didCloseSent uri] else []) ++
        (if st.hasCache then [Effect.cacheReset] else []) ++
        [Effect.firedDocumentClosed uri])

/-- One document-synchronization call on the `LanguageClient`. -/
inductive Op where
  | openDoc (uri langId : Nat) (text : Text) (openOpts : Bool)
  | updateDoc (uri : Nat) (newText : Text) (chg : Option SyncKind) (timedOut : Bool)
  | closeDoc (uri : Nat) (stillOpenElsewhere closeOpts : Bool)
deriving DecidableEq

/-- Execute one call. -/
def step (st : ClientState) : Op → Option (ClientState × List Effect)
  | Op.openDoc uri lang text o => some (openDocument st uri lang text o)
  | Op.updateDoc uri t chg tmo => updateDocument st uri t chg tmo
  | Op.closeDoc uri s c => closeDocument st uri s c

/-- Execute a sequence of calls, concatenating the emitted effects. -/
def run (st : ClientState) : List Op → Option (ClientState × List Effect)
  | [] => some (st, [])
  | op :: rest =>
    match step st op with
    | none => none
    | some (st', effs) =>
      match run st' rest with
      | none => none
      | some (st'', effs') => some (st'', effs ++ effs')

/-- The state of a freshly created `LanguageClient`. -/
def initState (hasCache : Bool) : ClientState := ⟨[], hasCache⟩

/-- The versions carried by the `didChange` notifications sent for a URI,
in emission order. -/
def didChangeVersions (uri : Nat) (effs : List Effect) : List Nat :=
  effs.filterMap (fun e =>
    match e with
    | Effect.didChangeSent u v _ => if u = uri then some v else none
    | _ => none)

/-- The list is strictly increasing in steps of exactly 1. -/
def chainBy1 : List Nat → Bool
  | [] => true
  | [_] => true
  | a :: b :: rest => if b = a + 1 then chainBy1 (b :: rest) else false

/-- `a` occurs (first) strictly before some occurrence of `b`. -/
def occursBefore (a b : Effect) : List Effect → Bool
  | [] => false
  | x :: rest =>
    if x = a then decide (b ∈ rest)
    else if x = b then false
    else occursBefore a b rest

/-- The version the `LanguageClient` holds for a URI (1 when absent, which
is also the version `openDocument` assigns). -/
def docVersion (st : ClientState) (uri : Nat) : Nat :=
  ((findDoc st.currentDocuments uri).map Doc.version).getD 1

theorem findDoc_setDoc_self (docs : List (Nat × Doc)) (uri : Nat) (d : Doc) :
    findDoc (setDoc docs uri d) uri = some d := by
  induction docs with
  | nil => simp [setDoc, findDoc]
  | cons p rest ih =>
    obtain ⟨u, e⟩ := p
    rw [setDoc]
    by_cases h : u = uri
    · rw [if_pos h, findDoc, if_pos rfl]
    · rw [if_neg h, findDoc, if_neg h, ih]

theorem findDoc_setDoc_ne (docs : List (Nat × Doc)) (uri uri' : Nat) (d : Doc)
    (h : uri' ≠ uri) : findDoc (setDoc docs uri' d) uri = findDoc docs uri := by
  induction docs with
  | nil => simp [setDoc, findDoc, h]
  | cons p rest ih =>
    obtain ⟨u, e⟩ := p
    rw [setDoc]
    by_cases hu : u = uri'
    · rw [if_pos hu, findDoc, if_neg h, findDoc, hu, if_neg h]
    · rw [if_neg hu, findDoc, findDoc, ih]

theorem findDoc_removeDoc_ne (docs : List (Nat × Doc)) (uri uri' : Nat)
    (h : uri' ≠ uri) : findDoc (removeDoc docs uri') uri = findDoc docs uri := by
  induction docs with
  | nil => rfl
  | cons p rest ih =>
    obtain ⟨u, e⟩ := p
    rw [removeDoc, List.filter_cons]
    by_cases hu : u = uri'
    · have : ¬(decide (u ≠ uri') = true) := by simp [hu]
      rw [if_neg this, findDoc, if_neg (by rw [hu]; exact h), ← removeDoc, ih]
    · have : decide (u ≠ uri') = true := by simp [hu]
      rw [if_pos this, findDoc, findDoc, ← removeDoc, ih]

theorem occursBefore_append (a b : Effect) (A rest : List Effect) (ha : a ∉ A) (hb : b ∉ A)
    (h : occursBefore a b rest = true) : occursBefore a b (A ++ rest) = true := by
  induction A with
  | nil => simpa using h
  | cons x A' ih =>
    have hx1 : x ≠ a := fun hh => ha (by simp [hh])
    have hx2 : x ≠ b := fun hh => hb (by simp [hh])
    rw [List.cons_append, occursBefore, if_neg hx1, if_neg hx2]
    exact ih (fun hh => ha (by simp [hh])) (fun hh => hb (by simp [hh]))

theorem occursBefore_head (a b : Effect) (rest : List Effect) (h : b ∈ rest) :
    occursBefore a b (a :: rest) = true := by
  rw [occursBefore, if_pos rfl]
  simpa using h

/-- C10: if at flush time the tracked document's text equals the stored
authoritative copy, `updateDocument` is a complete no-op: the state (stored
document, version, everything) is unchanged and no effect is emitted — no
`didChange`, no cache reset, no `onDocumentChanged`. -/
theorem updateDocument_noop_on_equal_text (st : ClientState) (uri : Nat) (doc : Doc)
    (newText : Text) (chg : Option SyncKind) (timedOut : Bool)
    (hfind : findDoc st.currentDocuments uri = some doc)
    (heq : doc.text = newText) :
    updateDocument st uri newText chg timedOut = some (st, []) := by
  simp only [updateDocument, hfind]
  rw [if_pos heq]

/-- Witness for C10 at a concrete input. -/
theorem updateDocument_noop_on_equal_text_witness :
    updateDocument ⟨[(1, ⟨0, 3, [97]⟩)], true⟩ 1 [97] (some SyncKind.incremental) false =
      some (⟨[(1, ⟨0, 3, [97]⟩)], true⟩, []) :=
  updateDocument_noop_on_equal_text ⟨[(1, ⟨0, 3, [97]⟩)], true⟩ 1 ⟨0, 3, [97]⟩ [97]
    (some SyncKind.incremental) false (by decide) (by decide)

/-- C5 (amended): with a cache configured, `updateDocument` and
`closeDocument` reset the cache strictly before firing `onDocumentChanged`
resp. `onDocumentClosed`; `openDocument`, however, fires `onDocumentOpen`
strictly before resetting the cache (the converse of the claimed order —
see the counterexample). -/
theorem cacheReset_order (st : ClientState) (uri uri2 langId : Nat) (text newText : Text)
    (openOpts closeOpts : Bool) (chg : Option SyncKind) (timedOut : Bool)
    (hcache : st.hasCache = true)
    (stU stC stO : ClientState) (effsU effsC effsO : List Effect)
    (hU : updateDocument st uri newText chg timedOut = some (stU, effsU))
    (hfU : Effect.firedDocumentChanged uri ∈ effsU)
    (hC : closeDocument st uri false closeOpts = some (stC, effsC))
    (hO : openDocument st uri2 langId text openOpts = (stO, effsO))
    (hfO : Effect.firedDocumentOpen uri2 ∈ effsO) :
    occursBefore Effect.cacheReset (Effect.firedDocumentChanged uri) effsU = true ∧
    occursBefore Effect.cacheReset (Effect.firedDocumentClosed uri) effsC = true ∧
    occursBefore (Effect.firedDocumentOpen uri2) Effect.cacheReset effsO = true := by
  refine ⟨?_, ?_, ?_⟩
  · rw [updateDocument] at hU
    cases hfind : findDoc st.currentDocuments uri with
    | none => rw [hfind] at hU; exact absurd hU (by simp)
    | some cur =>
      rw [hfind] at hU
      dsimp only at hU
      by_cases heq : cur.text = newText
      · rw [if_pos heq] at hU
        simp only [Option.some.injEq, Prod.mk.injEq] at hU
        obtain ⟨-, rfl⟩ := hU
        cases hfU
      · rw [if_neg heq] at hU
        simp only [Option.some.injEq, Prod.mk.injEq] at hU
        obtain ⟨-, rfl⟩ := hU
        rw [hcache, List.append_assoc]
        apply occursBefore_append
        · cases h : sendsDidChange chg <;> simp [h]
        · cases h : sendsDidChange chg <;> simp [h]
        · rw [if_pos rfl, List.singleton_append]
          exact occursBefore_head _ _ _ (by simp)
  · rw [closeDocument, if_neg (by simp)] at hC
    cases hfind : findDoc st.currentDocuments uri with
    | none => rw [hfind] at hC; exact absurd hC (by simp)
    | some cur =>
      rw [hfind] at hC
      dsimp only at hC
      simp only [Option.some.injEq, Prod.mk.injEq] at hC
      obtain ⟨-, rfl⟩ := hC
      rw [hcache, List.append_assoc]
      apply occursBefore_append
      · cases closeOpts <;> simp
      · cases closeOpts <;> simp
      · rw [if_pos rfl, List.singleton_append]
        exact occursBefore_head _ _ _ (by simp)
  · rw [openDocument] at hO
    by_cases hopen : (findDoc st.currentDocuments uri2).isSome
    · rw [if_pos hopen] at hO
      simp only [Prod.mk.injEq] at hO
      obtain ⟨-, rfl⟩ := hO
      cases hfO
    · rw [if_neg hopen] at hO
      simp only [Prod.mk.injEq] at hO
      obtain ⟨-, rfl⟩ := hO
      rw [hcache, List.append_assoc]
      apply occursBefore_append
      · cases openOpts <;> simp
      · cases openOpts <;> simp
      · rw [if_pos rfl, List.singleton_append]
        exact occursBefore_head _ _ _ (by simp)

/-- Witness for C5 (amended) at concrete inputs. -/
theorem cacheReset_order_witness :
    occursBefore Effect.cacheReset (Effect.firedDocumentChanged 0)
      [Effect.didChangeSent 0 2 [ContentChange.full [98]], Effect.cacheReset,
        Effect.firedDocumentChanged 0] = true ∧
    occursBefore Effect.cacheReset (Effect.firedDocumentClosed 0)
      [Effect.didCloseSent 0, Effect.cacheReset, Effect.firedDocumentClosed 0] = true ∧
    occursBefore (Effect.firedDocumentOpen 1) Effect.cacheReset
      [Effect.didOpenSent 1 1, Effect.firedDocumentOpen 1, Effect.cacheReset] = true :=
  cacheReset_order ⟨[(0, ⟨0, 1, [97]⟩)], true⟩ 0 1 0 [] [98] true true
    (some SyncKind.full) false rfl
    ⟨[(0, ⟨0, 2, [98]⟩)], true⟩ ⟨[], true⟩ ⟨[(0, ⟨0, 1, [97]⟩), (1, ⟨0, 1, []⟩)], true⟩
    [Effect.didChangeSent 0 2 [ContentChange.full [98]], Effect.cacheReset,
      Effect.firedDocumentChanged 0]
    [Effect.didCloseSent 0, Effect.cacheReset, Effect.firedDocumentClosed 0]
    [Effect.didOpenSent 1 1, Effect.firedDocumentOpen 1, Effect.cacheReset]
    (by decide) (by decide) (by decide) (by decide) (by decide)

/-- Counterexample to C5 as stated: in `openDocument` the cache reset
happens AFTER `onDocumentOpen` is fired.  On a fresh client with a cache,
opening URI 0 emits `didOpen`, then fires `onDocumentOpen`, then resets the
cache, so no cache reset precedes the event. -/
theorem cacheReset_after_open_counterexample :
    (openDocument (initState true) 0 0 [] true).2 =
      [Effect.didOpenSent 0 1, Effect.firedDocumentOpen 0, Effect.cacheReset] ∧
    Effect.cacheReset ∈ (openDocument (initState true) 0 0 [] true).2 ∧
    occursBefore Effect.cacheReset (Effect.firedDocumentOpen 0)
      (openDocument (initState true) 0 0 [] true).2 = false := by
  decide

/-- The op is a `closeDocument` call on URI `u`. -/
def isCloseOn (u : Nat) : Op → Bool
  | Op.closeDoc uri _ _ => decide (uri = u)
  | _ => false

/-- An `updateDocument` call on URI `u` runs with `didChange` deliverable
(a change registration exists and its sync kind is not `None`); other ops
count as enabled. -/
def updateEnabledOn (u : Nat) : Op → Bool
  | Op.updateDoc uri _ chg _ => if uri = u then sendsDidChange chg else true
  | _ => true

theorem docVersion_setDoc_self (docs : List (Nat × Doc)) (c : Bool) (uri : Nat) (d : Doc) :
    docVersion ⟨setDoc docs uri d, c⟩ uri = d.version := by
  rw [docVersion]
  dsimp only
  rw [findDoc_setDoc_self]
  rfl

theorem didChangeVersions_append (u : Nat) (e1 e2 : List Effect) :
    didChangeVersions u (e1 ++ e2) = didChangeVersions u e1 ++ didChangeVersions u e2 := by
  rw [didChangeVersions, didChangeVersions, didChangeVersions, List.filterMap_append]

theorem range'_glue (s m n : Nat) :
    List.range' s m ++ List.range' (s + m) n = List.range' s (m + n) := by
  have h := List.range'_append s m n 1
  rw [Nat.one_mul] at h
  rw [Nat.add_comm m n]
  exact h

theorem chainBy1_range' (s n : Nat) : chainBy1 (List.range' s n) = true := by
  induction n generalizing s with
  | zero => rfl
  | succ m ih =>
    cases m with
    | zero => rfl
    | succ m2 =>
      show chainBy1 (s :: (s + 1) :: List.range' (s + 2) m2) = true
      rw [chainBy1, if_pos rfl]
      exact ih (s + 1)

theorem step_versions (u : Nat) (st : ClientState) (op : Op)
    (hclose : isCloseOn u op = false) (hen : updateEnabledOn u op = true)
    (st' : ClientState) (effs : List Effect)
    (h : step st op = some (st', effs)) :
    didChangeVersions u effs =
      List.range' (docVersion st u + 1) (docVersion st' u - docVersion st u) ∧
    docVersion st u ≤ docVersion st' u := by
  cases op with
  | openDoc uri lang text o =>
    rw [step, openDocument] at h
    by_cases hopen : (findDoc st.currentDocuments uri).isSome
    · rw [if_pos hopen] at h
      simp only [Option.some.injEq, Prod.mk.injEq] at h
      obtain ⟨rfl, rfl⟩ := h
      exact ⟨by rw [Nat.sub_self]; rfl, le_refl _⟩
    · rw [if_neg hopen] at h
      simp only [Option.some.injEq, Prod.mk.injEq] at h
      obtain ⟨rfl, rfl⟩ := h
      have hv : docVersion ⟨setDoc st.currentDocuments uri ⟨lang, 1, text⟩, st.hasCache⟩ u
          = docVersion st u := by
        by_cases huri : uri = u
        · subst huri
          have hnone : findDoc st.currentDocuments uri = none := by
            rwa [Option.not_isSome_iff_eq_none] at hopen
          rw [docVersion, docVersion]
          dsimp only
          rw [findDoc_setDoc_self, hnone]
          rfl
        · rw [docVersion, docVersion]
          dsimp only
          rw [findDoc_setDoc_ne _ _ _ _ huri]
      refine ⟨?_, le_of_eq hv.symm⟩
      rw [hv, Nat.sub_self]
      cases o <;> cases hc : st.hasCache <;>
        simp [didChangeVersions, List.range']
  | updateDoc uri t chg tmo =>
    rw [step, updateDocument] at h
    cases hfind : findDoc st.currentDocuments uri with
    | none => rw [hfind] at h; exact absurd h (by simp)
    | some cur =>
      rw [hfind] at h
      dsimp only at h
      by_cases heq : cur.text = t
      · rw [if_pos heq] at h
        simp only [Option.some.injEq, Prod.mk.injEq] at h
        obtain ⟨rfl, rfl⟩ := h
        exact ⟨by rw [Nat.sub_self]; rfl, le_refl _⟩
      · rw [if_neg heq] at h
        simp only [Option.some.injEq, Prod.mk.injEq] at h
        obtain ⟨rfl, rfl⟩ := h
        by_cases huri : uri = u
        · subst huri
          have hsend : sendsDidChange chg = true := by
            rw [updateEnabledOn, if_pos rfl] at hen
            exact hen
          have hv : docVersion st uri = cur.version := by
            rw [docVersion, hfind]
            rfl
          rw [docVersion_setDoc_self, hv]
          dsimp only
          rw [show cur.version + 1 - cur.version = 1 by omega]
          refine ⟨?_, by omega⟩
          rw [hsend]
          cases hc : st.hasCache <;>
            simp [didChangeVersions, List.range']
        · rw [show docVersion
              ⟨setDoc st.currentDocuments uri
                ⟨cur.languageId, cur.version + 1,
                  applyContentChanges cur.text
                    (if chg = some SyncKind.incremental then
                      if tmo = true then [ContentChange.full t]
                      else
                        match lspDiff cur.text t with
                        | some cs => cs
                        | none => [ContentChange.full t]
                    else [ContentChange.full t])⟩, st.hasCache⟩ u
              = docVersion st u from by
            rw [docVersion, docVersion]
            dsimp only
            rw [findDoc_setDoc_ne _ _ _ _ huri], Nat.sub_self]
          refine ⟨?_, le_refl _⟩
          cases hs : sendsDidChange chg <;> cases hc : st.hasCache <;>
            simp [didChangeVersions, List.range', huri]
  | closeDoc uri s c =>
    have huri : uri ≠ u := by
      simpa [isCloseOn] using hclose
    rw [step, closeDocument] at h
    cases s with
    | true =>
      rw [if_pos rfl] at h
      simp only [Option.some.injEq, Prod.mk.injEq] at h
      obtain ⟨rfl, rfl⟩ := h
      exact ⟨by rw [Nat.sub_self]; rfl, le_refl _⟩
    | false =>
      rw [if_neg (by simp)] at h
      cases hfind : findDoc st.currentDocuments uri with
      | none => rw [hfind] at h; exact absurd h (by simp)
      | some cur =>
        rw [hfind] at h
        dsimp only at h
        simp only [Option.some.injEq, Prod.mk.injEq] at h
        obtain ⟨rfl, rfl⟩ := h
        have hv : docVersion ⟨removeDoc st.currentDocuments uri, st.hasCache⟩ u
            = docVersion st u := by
          rw [docVersion, docVersion]
          dsimp only
          rw [findDoc_removeDoc_ne _ _ _ huri]
        rw [hv, Nat.sub_self]
        refine ⟨?_, le_refl _⟩
        cases c <;> cases hc : st.hasCache <;>
          simp [didChangeVersions, List.range']

theorem run_versions (u : Nat) (ops : List Op) :
    ∀ (st st' : ClientState) (effs : List Effect),
      (∀ op ∈ ops, isCloseOn u op = false) →
      (∀ op ∈ ops, updateEnabledOn u op = true) →
      run st ops = some (st', effs) →
      didChangeVersions u effs =
        List.range' (docVersion st u + 1) (docVersion st' u - docVersion st u) ∧
      docVersion st u ≤ docVersion st' u := by
  induction ops with
  | nil =>
    intro st st' effs _ _ h
    rw [run] at h
    simp only [Option.some.injEq, Prod.mk.injEq] at h
    obtain ⟨rfl, rfl⟩ := h
    exact ⟨by rw [Nat.sub_self]; rfl, le_refl _⟩
  | cons op rest ih =>
    intro st st' effs hcl hen h
    rw [run] at h
    cases hstep : step st op with
    | none => rw [hstep] at h; exact absurd h (by simp)
    | some pr =>
      obtain ⟨st1, effs1⟩ := pr
      rw [hstep] at h
      dsimp only at h
      cases hrun : run st1 rest with
      | none => rw [hrun] at h; exact absurd h (by simp)
      | some pr2 =>
        obtain ⟨st2, effs2⟩ := pr2
        rw [hrun] at h
        simp only [Option.some.injEq, Prod.mk.injEq] at h
        obtain ⟨rfl, rfl⟩ := h
        have h1 := step_versions u st op (hcl op (by simp)) (hen op (by simp)) st1 effs1 hstep
        have h2 := ih st1 st2 effs2 (fun x hx => hcl x (by simp [hx]))
          (fun x hx => hen x (by simp [hx])) hrun
        have hle1 := h1.2
        have hle2 := h2.2
        refine ⟨?_, by omega⟩
        rw [didChangeVersions_append, h1.1, h2.1]
        rw [show docVersion st1 u + 1 =
          (docVersion st u + 1) + (docVersion st1 u - docVersion st u) by omega]
        rw [range'_glue]
        congr 1
        omega

/-- C2 (amended): starting from a fresh client, along any sequence of
document-synchronization calls that never closes URI `u` and in which every
`updateDocument` on `u` runs with `didChange` deliverable, the versions of
the `didChange` notifications sent for `u` are exactly `2, 3, …, v` (the
version stored for `u` at the end): the document is created by
`openDocument` with version 1, every text-changing update increments the
stored version by exactly 1 and sends that version, so the sent sequence is
strictly increasing by 1.  (As the counterexample shows, the unrestricted
claim fails: closing and reopening a URI resets its version to 1, so the
sent sequence repeats.) -/
theorem didChange_versions_by_one (hc : Bool) (u : Nat) (ops : List Op)
    (hnoclose : ∀ op ∈ ops, isCloseOn u op = false)
    (henabled : ∀ op ∈ ops, updateEnabledOn u op = true)
    (st : ClientState) (effs : List Effect)
    (hrun : run (initState hc) ops = some (st, effs)) :
    didChangeVersions u effs = List.range' 2 (docVersion st u - 1) ∧
    chainBy1 (didChangeVersions u effs) = true := by
  have h := run_versions u ops (initState hc) st effs hnoclose henabled hrun
  have hinit : docVersion (initState hc) u = 1 := rfl
  rw [hinit] at h
  refine ⟨h.1, ?_⟩
  rw [h.1]
  exact chainBy1_range' 2 (docVersion st u - 1)

/-- Witness for C2 (amended) on a concrete trace: open, then two
text-changing updates; the sent versions are `[2, 3]`. -/
theorem didChange_versions_by_one_witness :
    didChangeVersions 0
      [Effect.didOpenSent 0 1, Effect.firedDocumentOpen 0, Effect.cacheReset,
       Effect.didChangeSent 0 2 [ContentChange.full [97, 98]], Effect.cacheReset,
       Effect.firedDocumentChanged 0,
       Effect.didChangeSent 0 3
         [ContentChange.incremental ⟨⟨0, 0⟩, ⟨0, 2⟩⟩ 2 [99]], Effect.cacheReset,
       Effect.firedDocumentChanged 0] =
      List.range' 2
        (docVersion ⟨[(0, ⟨7, 3, [99]⟩)], true⟩ 0 - 1) ∧
    chainBy1 (didChangeVersions 0
      [Effect.didOpenSent 0 1, Effect.firedDocumentOpen 0, Effect.cacheReset,
       Effect.didChangeSent 0 2 [ContentChange.full [97, 98]], Effect.cacheReset,
       Effect.firedDocumentChanged 0,
       Effect.didChangeSent 0 3
         [ContentChange.incremental ⟨⟨0, 0⟩, ⟨0, 2⟩⟩ 2 [99]], Effect.cacheReset,
       Effect.firedDocumentChanged 0]) = true :=
  didChange_versions_by_one true 0
    [Op.openDoc 0 7 [97] true,
     Op.updateDoc 0 [97, 98] (some SyncKind.full) false,
     Op.updateDoc 0 [99] (some SyncKind.incremental) false]
    (by decide) (by decide) ⟨[(0, ⟨7, 3, [99]⟩)], true⟩ _ (by decide)

/-- Counterexample to C2 as stated: closing and reopening URI 0 resets the
version, so two `didChange` notifications with the same version 2 are sent
for the same URI — the sent sequence `[2, 2]` is not strictly increasing. -/
theorem didChange_versions_counterexample :
    (run (initState true)
      [Op.openDoc 0 0 [] true,
       Op.updateDoc 0 [97] (some SyncKind.full) false,
       Op.closeDoc 0 false true,
       Op.openDoc 0 0 [98] true,
       Op.updateDoc 0 [99] (some SyncKind.full) false]).map
      (fun r => didChangeVersions 0 r.2) = some [2, 2] ∧
    chainBy1 [2, 2] = false := by
  decide

/-! ### The request cache (`src/tools/cache.ts`, `src/constants/lsp.ts`) -/

/-- The LSP request methods of `forwardedClientRequests`; `other n` stands
for any method outside that list. -/
inductive LspMethod where
  | hover
  | references
  | signatureHelp
  | semanticTokensFull
  | semanticTokensDelta
  | semanticTokensRange
  | definition
  | documentHighlight
  | workspaceSymbol
  | formatting
  | rangeFormatting
  | onTypeFormatting
  | rename
  | prepareRename
  | executeCommand
  | completion
  | completionResolve
  | codeAction
  | codeActionResolve
  | codeLens
  | codeLensResolve
  | documentLink
  | documentLinkResolve
  | foldingRange
  | documentColor
  | other (n : Nat)
deriving DecidableEq

/-- `forwardedClientRequests` of `src/constants/lsp.ts`, in source order
(`ReferencesRequest.type` appears twice there, as here). -/
def forwardedClientRequests : List LspMethod :=
  [LspMethod.hover, LspMethod.references, LspMethod.signatureHelp,
   LspMethod.semanticTokensFull, LspMethod.semanticTokensDelta,
   LspMethod.semanticTokensRange, LspMethod.definition, LspMethod.references,
   LspMethod.documentHighlight, LspMethod.workspaceSymbol, LspMethod.formatting,
   LspMethod.rangeFormatting, LspMethod.onTypeFormatting, LspMethod.rename,
   LspMethod.prepareRename, LspMethod.executeCommand, LspMethod.completion,
   LspMethod.completionResolve, LspMethod.codeAction, LspMethod.codeActionResolve,
   LspMethod.codeLens, LspMethod.codeLensResolve, LspMethod.documentLink,
   LspMethod.documentLinkResolve, LspMethod.foldingRange, LspMethod.documentColor]

/-- `cachedRequestMethods` of `src/tools/cache.ts`:
`new Set(forwardedClientRequests.map(request => request.method))`;
membership models `Set.has`. -/
def cachedRequestMethods (m : LspMethod) : Bool :=
  forwardedClientRequests.contains m

/-- A request argument: a plain value or a cancellation token
(`CancellationToken.is` distinguishes them by shape). -/
inductive Arg where
  | value (v : Nat)
  | token (id : Nat)
deriving DecidableEq

/-- `CancellationToken.is`. -/
def isToken : Arg → Bool
  | Arg.token _ => true
  | _ => false

/-- `CancellationToken.is(args[args.length - 1]) ? args.slice(0, -1) : args`
(on an empty list, `args[-1]` is `undefined`, which is not a token). -/
def realArgs (args : List Arg) : List Arg :=
  match args.getLast? with
  | some a => if isToken a then args.dropLast else args
  | none => args

/-- The observable state of a memoized connection: the cache entries
(fingerprint ↦ stored result handle) and the log of upstream `sendRequest`
invocations.  A result handle is the index of the upstream call that
produced it (promise identity).  The fingerprint
(`objectHash({method, args})`) is modelled as the `(method, args)` pair
itself, i.e. a collision-free hash. -/
structure MemoState where
  cache : List ((LspMethod × List Arg) × Nat)
  upstreamCalls : List (LspMethod × List Arg)
deriving DecidableEq

/-- `ConnectionRequestCache.get`. -/
def cacheLookup (cache : List ((LspMethod × List Arg) × Nat))
    (k : LspMethod × List Arg) : Option Nat :=
  match cache with
  | [] => none
  | (k', v) :: rest => if k' = k then some v else cacheLookup rest k

/-- `sendRequest` of the connection returned by `createMemoizedConnection`
(`src/tools/cache.ts`): non-cacheable methods pass straight through;
otherwise the trailing cancellation token is stripped, the cache is
consulted, and on a miss the upstream call's pending result handle is
stored and returned. -/
def memoSendRequest (st : MemoState) (m : LspMethod) (args : List Arg) :
    MemoState × Nat :=
  if cachedRequestMethods m = false then
    (⟨st.cache, st.upstreamCalls ++ [(m, args)]⟩, st.upstreamCalls.length)
  else
    match cacheLookup st.cache (m, realArgs args) with
    | some v => (st, v)
    | none =>
      (⟨st.cache ++ [((m, realArgs args), st.upstreamCalls.length)],
        st.upstreamCalls ++ [(m, args)]⟩, st.upstreamCalls.length)

/-- The (optional) trailing cancellation token of a call. -/
def tokList : Option Nat → List Arg
  | some i => [Arg.token i]
  | none => []

theorem realArgs_strip (a : List Arg) (ha : ∀ x ∈ a, isToken x = false)
    (tok : Option Nat) : realArgs (a ++ tokList tok) = a := by
  cases tok with
  | none =>
    rw [tokList, List.append_nil, realArgs]
    cases hl : a.getLast? with
    | none => rfl
    | some x =>
      have hx := ha x (List.mem_of_mem_getLast? hl)
      dsimp only
      rw [if_neg (by rw [hx]; simp)]
  | some i =>
    rw [tokList, realArgs, List.getLast?_concat]
    simp [isToken, List.dropLast_concat]

theorem cacheLookup_append_self (c : List ((LspMethod × List Arg) × Nat))
    (k : LspMethod × List Arg) (v : Nat) (h : cacheLookup c k = none) :
    cacheLookup (c ++ [(k, v)]) k = some v := by
  induction c with
  | nil => rw [List.nil_append, cacheLookup, if_pos rfl]
  | cons p rest ih =>
    obtain ⟨k', v'⟩ := p
    rw [cacheLookup] at h
    by_cases hk : k' = k
    · rw [if_pos hk] at h
      exact absurd h (by simp)
    · rw [if_neg hk] at h
      rw [List.cons_append, cacheLookup, if_neg hk, ih h]

/-- C3: for a cacheable method `m` and a token-free argument list `a` whose
fingerprint is not yet cached, two calls of the memoized `sendRequest` for
`(m, a)` — with possibly different or absent trailing cancellation tokens
and no intervening cache reset — invoke the underlying connection's
`sendRequest` exactly once (only the first call is logged upstream), and
the second call returns the same stored result handle as the first. -/
theorem memo_sendRequest_idempotent (st : MemoState) (m : LspMethod) (a : List Arg)
    (tok1 tok2 : Option Nat)
    (hm : cachedRequestMethods m = true)
    (ha : ∀ x ∈ a, isToken x = false)
    (hfresh : cacheLookup st.cache (m, a) = none) :
    (memoSendRequest (memoSendRequest st m (a ++ tokList tok1)).1 m
        (a ++ tokList tok2)).1.upstreamCalls =
      st.upstreamCalls ++ [(m, a ++ tokList tok1)] ∧
    (memoSendRequest (memoSendRequest st m (a ++ tokList tok1)).1 m
        (a ++ tokList tok2)).2 =
      (memoSendRequest st m (a ++ tokList tok1)).2 ∧
    cacheLookup (memoSendRequest (memoSendRequest st m (a ++ tokList tok1)).1 m
        (a ++ tokList tok2)).1.cache (m, a) =
      some (memoSendRequest st m (a ++ tokList tok1)).2 := by
  have hm' : ¬cachedRequestMethods m = false := by rw [hm]; simp
  have hr1 : realArgs (a ++ tokList tok1) = a := realArgs_strip a ha tok1
  have hr2 : realArgs (a ++ tokList tok2) = a := realArgs_strip a ha tok2
  have hfirst : memoSendRequest st m (a ++ tokList tok1) =
      (⟨st.cache ++ [((m, a), st.upstreamCalls.length)],
        st.upstreamCalls ++ [(m, a ++ tokList tok1)]⟩, st.upstreamCalls.length) := by
    rw [memoSendRequest, if_neg hm', hr1, hfresh]
  rw [hfirst]
  have hhit : cacheLookup (st.cache ++ [((m, a), st.upstreamCalls.length)]) (m, a) =
      some st.upstreamCalls.length :=
    cacheLookup_append_self st.cache (m, a) st.upstreamCalls.length hfresh
  have hsecond : memoSendRequest
      (⟨st.cache ++ [((m, a), st.upstreamCalls.length)],
        st.upstreamCalls ++ [(m, a ++ tokList tok1)]⟩ : MemoState) m
      (a ++ tokList tok2) =
      (⟨st.cache ++ [((m, a), st.upstreamCalls.length)],
        st.upstreamCalls ++ [(m, a ++ tokList tok1)]⟩, st.upstreamCalls.length) := by
    rw [memoSendRequest, if_neg hm', hr2]
    dsimp only
    rw [hhit]
  rw [hsecond]
  exact ⟨rfl, rfl, hhit⟩

/-- Witness for C3 at a concrete input: a fresh memoized connection, two
`textDocument/hover` requests with the same argument, the first carrying a
cancellation token, the second none. -/
theorem memo_sendRequest_idempotent_witness :
    (memoSendRequest (memoSendRequest ⟨[], []⟩ LspMethod.hover
        ([Arg.value 5] ++ tokList (some 1))).1 LspMethod.hover
        ([Arg.value 5] ++ tokList none)).1.upstreamCalls =
      [] ++ [(LspMethod.hover, [Arg.value 5] ++ tokList (some 1))] ∧
    (memoSendRequest (memoSendRequest ⟨[], []⟩ LspMethod.hover
        ([Arg.value 5] ++ tokList (some 1))).1 LspMethod.hover
        ([Arg.value 5] ++ tokList none)).2 =
      (memoSendRequest ⟨[], []⟩ LspMethod.hover
        ([Arg.value 5] ++ tokList (some 1))).2 ∧
    cacheLookup (memoSendRequest (memoSendRequest ⟨[], []⟩ LspMethod.hover
        ([Arg.value 5] ++ tokList (some 1))).1 LspMethod.hover
        ([Arg.value 5] ++ tokList none)).1.cache (LspMethod.hover, [Arg.value 5]) =
      some (memoSendRequest ⟨[], []⟩ LspMethod.hover
        ([Arg.value 5] ++ tokList (some 1))).2 :=
  memo_sendRequest_idempotent ⟨[], []⟩ LspMethod.hover [Arg.value 5] (some 1) none
    (by decide) (by decide) (by decide)

/-- C4, evaluated at the failing input: `workspace/executeCommand` IS a
member of `cachedRequestMethods` (the set is built from the full
`forwardedClientRequests` list, which contains execute-command), so of two
identical executeCommand requests only the first reaches the upstream
connection — the second is served from the cache. -/
theorem executeCommand_is_cached :
    cachedRequestMethods LspMethod.executeCommand = true ∧
    (memoSendRequest (memoSendRequest ⟨[], []⟩ LspMethod.executeCommand
        [Arg.value 7]).1 LspMethod.executeCommand [Arg.value 7]).1.upstreamCalls =
      [(LspMethod.executeCommand, [Arg.value 7])] ∧
    (memoSendRequest (memoSendRequest ⟨[], []⟩ LspMethod.executeCommand
        [Arg.value 7]).1 LspMethod.executeCommand [Arg.value 7]).2 =
      (memoSendRequest ⟨[], []⟩ LspMethod.executeCommand [Arg.value 7]).2 := by
  decide

/-! ### The dynamic registration registry (`src/capabilities.ts`) -/

/-- A dynamic capability `Registration`: id, method, options (identity is
the id).  Methods and options are opaque naturals. -/
structure Registration where
  id : Nat
  method : Nat
  registerOptions : Nat
deriving DecidableEq

/-- The registration side of `WatchableServerCapabilities`: the stored
`registrationRequests` and the log of fired `onRegistrationRequest`
events, each carrying the filtered registration list it was fired with. -/
structure RegState where
  registrationRequests : List Registration
  firedEvents : List (List Registration)
deriving DecidableEq

/-- `handleRegistrationRequest` (`src/capabilities.ts`): drop the incoming
registrations whose id is already present, and only when something new
remains, append the remainder and fire `onRegistrationRequest` with it. -/
def handleRegistrationRequest (st : RegState) (params : List Registration) : RegState :=
  let existingRegistrationIds := st.registrationRequests.map Registration.id
  let registrations := params.filter (fun r => !existingRegistrationIds.contains r.id)
  if registrations.length > 0 then
    ⟨st.registrationRequests ++ registrations, st.firedEvents ++ [registrations]⟩
  else st

/-- A sequence of `handleRegistrationRequest` calls. -/
def runRegistrations (st : RegState) (reqs : List (List Registration)) : RegState :=
  reqs.foldl handleRegistrationRequest st

theorem handleRegistration_requests_eq (st : RegState) (params : List Registration) :
    (handleRegistrationRequest st params).registrationRequests =
      st.registrationRequests ++
        params.filter
          (fun r => !(st.registrationRequests.map Registration.id).contains r.id) := by
  rw [handleRegistrationRequest]
  by_cases h : (params.filter
      (fun r => !(st.registrationRequests.map Registration.id).contains r.id)).length > 0
  · rw [if_pos h]
  · rw [if_neg h]
    have : params.filter
        (fun r => !(st.registrationRequests.map Registration.id).contains r.id) = [] := by
      cases hf : params.filter
          (fun r => !(st.registrationRequests.map Registration.id).contains r.id) with
      | nil => rfl
      | cons x rest => rw [hf] at h; exact absurd (by simp) h
    rw [this, List.append_nil]

theorem handleRegistration_nodup (st : RegState) (params : List Registration)
    (hst : (st.registrationRequests.map Registration.id).Nodup)
    (hp : (params.map Registration.id).Nodup) :
    ((handleRegistrationRequest st params).registrationRequests.map Registration.id).Nodup := by
  rw [handleRegistration_requests_eq, List.map_append]
  refine hst.append ?_ ?_
  · exact hp.sublist ((List.filter_sublist params).map Registration.id)
  · intro x hx hx2
    obtain ⟨r, hr, hrx⟩ := List.mem_map.mp hx2
    have h2 := (List.mem_filter.mp hr).2
    rw [hrx] at h2
    have h3 : (st.registrationRequests.map Registration.id).contains x = true :=
      List.elem_iff.mpr hx
    rw [h3] at h2
    simp at h2

theorem handleRegistration_idem (st : RegState) (params : List Registration) :
    handleRegistrationRequest (handleRegistrationRequest st params) params =
      handleRegistrationRequest st params := by
  have hall : ∀ r ∈ params,
      ((handleRegistrationRequest st params).registrationRequests.map
        Registration.id).contains r.id = true := by
    intro r hr
    rw [handleRegistration_requests_eq, List.map_append, List.elem_iff, List.mem_append]
    by_cases hc : (st.registrationRequests.map Registration.id).contains r.id
    · exact Or.inl (List.elem_iff.mp hc)
    · refine Or.inr (List.mem_map.mpr ⟨r, List.mem_filter.mpr ⟨hr, ?_⟩, rfl⟩)
      rw [Bool.not_eq_true] at hc
      rw [hc]
      rfl
  have hfilter : params.filter
      (fun r => !((handleRegistrationRequest st params).registrationRequests.map
        Registration.id).contains r.id) = [] := by
    refine List.filter_eq_nil_iff.mpr (fun r hr => ?_)
    rw [hall r hr]
    simp
  rw [show handleRegistrationRequest (handleRegistrationRequest st params) params =
      if (params.filter
        (fun r => !((handleRegistrationRequest st params).registrationRequests.map
          Registration.id).contains r.id)).length > 0 then
        ⟨(handleRegistrationRequest st params).registrationRequests ++ _,
          (handleRegistrationRequest st params).firedEvents ++ [_]⟩
      else handleRegistrationRequest st params from rfl]
  rw [hfilter]
  simp

theorem runRegistrations_nodup (reqs : List (List Registration)) :
    ∀ st : RegState, (st.registrationRequests.map Registration.id).Nodup →
      (∀ ps ∈ reqs, (ps.map Registration.id).Nodup) →
      ((runRegistrations st reqs).registrationRequests.map Registration.id).Nodup := by
  induction reqs with
  | nil => intro st hst _; exact hst
  | cons ps rest ih =>
    intro st hst hreqs
    rw [runRegistrations, List.foldl_cons]
    exact ih (handleRegistrationRequest st ps)
      (handleRegistration_nodup st ps hst (hreqs ps (by simp)))
      (fun x hx => hreqs x (by simp [hx]))

/-- C6 (amended): along any sequence of registration requests in which each
single request carries pairwise-distinct ids, the registry's ids are unique
at every reachable state; a registration whose id is already present is
silently ignored — the stored delta of a request is exactly the incoming
list filtered to fresh ids — and re-issuing a request a second time is a
complete no-op (neither stores nor fires anything), so issuing two
identical Registrations is equivalent to issuing one.  (As the
counterexample shows, the unrestricted uniqueness claim fails when one
request itself contains two registrations with the same id: the source only
filters against previously stored ids.) -/
theorem registration_dedup (st : RegState) (reqs : List (List Registration))
    (ps : List Registration)
    (hst : (st.registrationRequests.map Registration.id).Nodup)
    (hreqs : ∀ l ∈ reqs, (l.map Registration.id).Nodup) :
    ((runRegistrations st reqs).registrationRequests.map Registration.id).Nodup ∧
    (handleRegistrationRequest (runRegistrations st reqs) ps).registrationRequests =
      (runRegistrations st reqs).registrationRequests ++
        ps.filter (fun r =>
          !((runRegistrations st reqs).registrationRequests.map
            Registration.id).contains r.id) ∧
    handleRegistrationRequest (handleRegistrationRequest (runRegistrations st reqs) ps) ps =
      handleRegistrationRequest (runRegistrations st reqs) ps :=
  ⟨runRegistrations_nodup reqs st hst hreqs,
   handleRegistration_requests_eq (runRegistrations st reqs) ps,
   handleRegistration_idem (runRegistrations st reqs) ps⟩

/-- Witness for C6 (amended) at concrete inputs. -/
theorem registration_dedup_witness :
    ((runRegistrations ⟨[], []⟩ [[⟨1, 5, 0⟩], [⟨1, 6, 1⟩, ⟨2, 7, 2⟩]]).registrationRequests.map
      Registration.id).Nodup ∧
    (handleRegistrationRequest (runRegistrations ⟨[], []⟩ [[⟨1, 5, 0⟩], [⟨1, 6, 1⟩, ⟨2, 7, 2⟩]])
        [⟨2, 8, 3⟩, ⟨3, 9, 4⟩]).registrationRequests =
      (runRegistrations ⟨[], []⟩ [[⟨1, 5, 0⟩], [⟨1, 6, 1⟩, ⟨2, 7, 2⟩]]).registrationRequests ++
        [⟨2, 8, 3⟩, ⟨3, 9, 4⟩].filter (fun r =>
          !((runRegistrations ⟨[], []⟩
              [[⟨1, 5, 0⟩], [⟨1, 6, 1⟩, ⟨2, 7, 2⟩]]).registrationRequests.map
            Registration.id).contains r.id) ∧
    handleRegistrationRequest (handleRegistrationRequest
        (runRegistrations ⟨[], []⟩ [[⟨1, 5, 0⟩], [⟨1, 6, 1⟩, ⟨2, 7, 2⟩]])
        [⟨2, 8, 3⟩, ⟨3, 9, 4⟩]) [⟨2, 8, 3⟩, ⟨3, 9, 4⟩] =
      handleRegistrationRequest
        (runRegistrations ⟨[], []⟩ [[⟨1, 5, 0⟩], [⟨1, 6, 1⟩, ⟨2, 7, 2⟩]])
        [⟨2, 8, 3⟩, ⟨3, 9, 4⟩] :=
  registration_dedup ⟨[], []⟩ [[⟨1, 5, 0⟩], [⟨1, 6, 1⟩, ⟨2, 7, 2⟩]] [⟨2, 8, 3⟩, ⟨3, 9, 4⟩]
    (by decide) (by decide)

/-- Counterexample to C6 as stated: a single registration request that
itself contains two registrations with the same id stores both — the
filter only checks ids already in the registry — so id uniqueness does not
hold at every reachable state. -/
theorem registration_dedup_counterexample :
    (handleRegistrationRequest ⟨[], []⟩
      [⟨1, 5, 0⟩, ⟨1, 6, 1⟩]).registrationRequests = [⟨1, 5, 0⟩, ⟨1, 6, 1⟩] ∧
    ¬((handleRegistrationRequest ⟨[], []⟩
      [⟨1, 5, 0⟩, ⟨1, 6, 1⟩]).registrationRequests.map Registration.id).Nodup := by
  decide

/-! ### Refresh-request gating (`bindClientToServer`,
`src/language-client-mutualization.ts`) -/

/-- The five server-initiated refresh request kinds. -/
inductive RefreshKind where
  | codeLens
  | semanticTokens
  | diagnostics
  | inlayHint
  | inlineValue
deriving DecidableEq

/-- The client's advertised `workspace.*.refreshSupport` flags (an absent
capability object counts as `false` through `?? false`). -/
structure ClientRefreshCaps where
  codeLens : Bool
  semanticTokens : Bool
  diagnostics : Bool
  inlayHint : Bool
  inlineValue : Bool
deriving DecidableEq

/-- The refresh requests a binding sends to its client when the
`LanguageClient` dispatches a server-initiated refresh request of kind `k`
to its subscribers.  Transcribed from the subscription blocks of
`bindClientToServer`: the code-lens, semantic-tokens and diagnostics blocks
subscribe to the event of their own kind and gate on the matching flag; the
fourth block subscribes to `onInlayHintRefresh` gating on
`inlayHint.refreshSupport`; the fifth block also subscribes to
`onInlayHintRefresh` (not `onInlineValueRefresh`) while gating on
`inlineValue.refreshSupport` and sending an inline-value refresh; nothing
subscribes to `onInlineValueRefresh`. -/
def refreshForwarded (caps : ClientRefreshCaps) : RefreshKind → List RefreshKind
  | RefreshKind.codeLens => if caps.codeLens then [RefreshKind.codeLens] else []
  | RefreshKind.semanticTokens =>
      if caps.semanticTokens then [RefreshKind.semanticTokens] else []
  | RefreshKind.diagnostics =>
      if caps.diagnostics then [RefreshKind.diagnostics] else []
  | RefreshKind.inlayHint =>
      (if caps.inlayHint then [RefreshKind.inlayHint] else []) ++
      (if caps.inlineValue then [RefreshKind.inlineValue] else [])
  | RefreshKind.inlineValue => []

/-- C7, evaluated at the failing input: with every `refreshSupport` flag
advertised true, a server-initiated inline-value refresh is forwarded to
the client as nothing at all (no binding handler is subscribed on the
inline-value refresh event), while an inlay-hint refresh additionally
triggers an inline-value refresh; the claimed gating does hold for the
code-lens kind.  This contradicts the claim that each refresh kind is
forwarded as itself iff the matching `refreshSupport` flag is true. -/
theorem inlineValue_refresh_not_forwarded :
    refreshForwarded ⟨true, true, true, true, true⟩ RefreshKind.inlineValue = [] ∧
    refreshForwarded ⟨true, true, true, true, true⟩ RefreshKind.inlayHint =
      [RefreshKind.inlayHint, RefreshKind.inlineValue] ∧
    refreshForwarded ⟨true, true, true, true, true⟩ RefreshKind.codeLens =
      [RefreshKind.codeLens] ∧
    refreshForwarded ⟨false, false, false, false, false⟩ RefreshKind.codeLens = [] := by
  decide

/-! ### Workspace-edit filtering (`bindClientToServer`) -/

/-- One entry of `WorkspaceEdit.documentChanges`: a `TextDocumentEdit`
(URI, optional version of its `OptionalVersionedTextDocumentIdentifier`,
opaque edit list) or any other document change (create/rename/delete file,
for which `TextDocumentEdit.is` is false). -/
inductive DocumentChange where
  | textDocumentEdit (uri : Nat) (version : Option Int) (edits : Nat)
  | otherChange (tag : Nat)
deriving DecidableEq

/-- A `WorkspaceEdit`: the `changes` object (entries uri ↦ edits) and the
`documentChanges` array, each optional. -/
structure WorkspaceEdit where
  changes : Option (List (Nat × Nat))
  documentChanges : Option (List DocumentChange)
deriving DecidableEq

/-- `ApplyWorkspaceEditParams` (label and edit). -/
structure ApplyWorkspaceEditParams where
  label : Option Nat
  edit : WorkspaceEdit
deriving DecidableEq

/-- `isDocumentOpen` of `bindClientToServer`: the URI is open in THIS
client's document tracker (which also holds the client's version of each
open document). -/
def isDocumentOpen (docs : List (Nat × Int)) (uri : Nat) : Bool :=
  docs.any (fun p => p.1 = uri)

/-- The `onWorkspaceApplyEdit` handler of `bindClientToServer`: the edit
forwarded to the client keeps the label, filters `changes` to entries whose
URI is open in the tracker, and filters `documentChanges` to
`TextDocumentEdit` entries whose URI is open (other entries are dropped).
No field of a kept entry — in particular no `version` — is modified. -/
def forwardApplyEdit (docs : List (Nat × Int)) (params : ApplyWorkspaceEditParams) :
    ApplyWorkspaceEditParams :=
  ⟨params.label,
    ⟨params.edit.changes.map (fun cs => cs.filter (fun p => isDocumentOpen docs p.1)),
     params.edit.documentChanges.map (fun dcs => dcs.filter (fun dc =>
       match dc with
       | DocumentChange.textDocumentEdit uri _ _ => isDocumentOpen docs uri
       | DocumentChange.otherChange _ => false))⟩⟩

/-- C8 (amended): the edit forwarded to a client contains only `changes`
entries and `documentChanges` entries whose URI is currently open in that
client's tracker; every kept `documentChanges` entry is a
`TextDocumentEdit` taken verbatim from the server's edit — its `version`
field is forwarded unchanged, NOT rewritten to the version held in the
tracker (see the counterexample). -/
theorem applyEdit_filtering (docs : List (Nat × Int)) (params : ApplyWorkspaceEditParams)
    (cs : List (Nat × Nat)) (dcs : List DocumentChange)
    (hcs : (forwardApplyEdit docs params).edit.changes = some cs)
    (hdcs : (forwardApplyEdit docs params).edit.documentChanges = some dcs) :
    (∀ p ∈ cs, isDocumentOpen docs p.1 = true ∧ p ∈ params.edit.changes.getD []) ∧
    (∀ dc ∈ dcs, dc ∈ params.edit.documentChanges.getD [] ∧
      ∃ uri version edits, dc = DocumentChange.textDocumentEdit uri version edits ∧
        isDocumentOpen docs uri = true) ∧
    (forwardApplyEdit docs params).label = params.label := by
  refine ⟨?_, ?_, rfl⟩
  · intro p hp
    rw [forwardApplyEdit] at hcs
    dsimp only at hcs
    cases horig : params.edit.changes with
    | none => rw [horig] at hcs; exact absurd hcs (by simp)
    | some orig =>
      rw [horig] at hcs
      simp only [Option.map_some', Option.some.injEq] at hcs
      rw [← hcs] at hp
      have hm := List.mem_filter.mp hp
      exact ⟨hm.2, by simpa using hm.1⟩
  · intro dc hdc
    rw [forwardApplyEdit] at hdcs
    dsimp only at hdcs
    cases horig : params.edit.documentChanges with
    | none => rw [horig] at hdcs; exact absurd hdcs (by simp)
    | some orig =>
      rw [horig] at hdcs
      simp only [Option.map_some', Option.some.injEq] at hdcs
      rw [← hdcs] at hdc
      have hm := List.mem_filter.mp hdc
      refine ⟨by simpa using hm.1, ?_⟩
      have h2 := hm.2
      cases dc with
      | textDocumentEdit uri version edits => exact ⟨uri, version, edits, rfl, h2⟩
      | otherChange tag => exact absurd h2 (by simp)

/-- Witness for C8 (amended) at a concrete input: tracker has URIs 1 and 2
open, the server edit touches URIs 1 and 3. -/
theorem applyEdit_filtering_witness :
    (∀ p ∈ [(1, 11)], isDocumentOpen [(1, 5), (2, 7)] (Prod.fst p) = true ∧
      p ∈ (some [(1, 11), (3, 13)] : Option (List (Nat × Nat))).getD []) ∧
    (∀ dc ∈ [DocumentChange.textDocumentEdit 1 (some 3) 0],
      dc ∈ (some [DocumentChange.textDocumentEdit 1 (some 3) 0,
        DocumentChange.textDocumentEdit 3 (some 9) 1,
        DocumentChange.otherChange 4] : Option (List DocumentChange)).getD [] ∧
      ∃ uri version edits, dc = DocumentChange.textDocumentEdit uri version edits ∧
        isDocumentOpen [(1, 5), (2, 7)] uri = true) ∧
    (forwardApplyEdit [(1, 5), (2, 7)]
      ⟨some 0, ⟨some [(1, 11), (3, 13)],
        some [DocumentChange.textDocumentEdit 1 (some 3) 0,
          DocumentChange.textDocumentEdit 3 (some 9) 1,
          DocumentChange.otherChange 4]⟩⟩).label = some 0 :=
  applyEdit_filtering [(1, 5), (2, 7)]
    ⟨some 0, ⟨some [(1, 11), (3, 13)],
      some [DocumentChange.textDocumentEdit 1 (some 3) 0,
        DocumentChange.textDocumentEdit 3 (some 9) 1,
        DocumentChange.otherChange 4]⟩⟩
    [(1, 11)] [DocumentChange.textDocumentEdit 1 (some 3) 0] (by decide) (by decide)

/-- Counterexample to C8 as stated: the tracker holds URI 1 at version 5,
the server edit carries a `TextDocumentEdit` for URI 1 with version 3; the
forwarded edit still carries version 3 — the version field is not rewritten
to the tracker's version. -/
theorem applyEdit_version_not_rewritten_counterexample :
    forwardApplyEdit [(1, 5)]
      ⟨none, ⟨none, some [DocumentChange.textDocumentEdit 1 (some 3) 0]⟩⟩ =
      ⟨none, ⟨none, some [DocumentChange.textDocumentEdit 1 (some 3) 0]⟩⟩ ∧
    some [DocumentChange.textDocumentEdit 1 (some 3) 0] ≠
      some [DocumentChange.textDocumentEdit 1 (some 5) 0] := by
  decide

end LsMut
